import Mathlib

/-!
# Bencode codec of `pkg/bencode/bencode.go`

A shallow embedding of the encoder (`Marshal`) and of the decoder entry point
(`Unmarshal`) together with the part of Go's `reflect`, `strconv`, `sort` and
`bytes` packages the encoder calls.

* A Go string or byte slice is a sequence of bytes; it is represented as a
  `List Char`, one character per byte.
* A Go call either returns or panics. Functions of `reflect` that can panic
  return `Except Panic _`; an encoder step returns the buffer it has reached
  together with the panic that stopped it, if any (`Res`).
* A call whose recursion never ends (typeEncoder on a type that contains
  itself) is shown by how the program ends: the fatal error stack overflow.
* `encOpts` is an empty struct and is not represented.
-/

namespace Bencode

/-! ## reflect: kinds, types, values -/

/-- The enumeration reflect.Kind. -/
inductive Kind where
  | Invalid | Bool
  | Int | Int8 | Int16 | Int32 | Int64
  | Uint | Uint8 | Uint16 | Uint32 | Uint64 | Uintptr
  | Float32 | Float64 | Complex64 | Complex128
  | Array | Chan | Func | Interface | Map | Ptr | Slice | String | Struct
  | UnsafePointer
  deriving DecidableEq, Repr

/-- The five signed integer kinds. -/
inductive IntKind where
  | Int | Int8 | Int16 | Int32 | Int64
  deriving DecidableEq, Repr

/-- The six unsigned integer kinds. -/
inductive UintKind where
  | Uint | Uint8 | Uint16 | Uint32 | Uint64 | Uintptr
  deriving DecidableEq, Repr

/-- The two floating-point kinds. -/
inductive FloatKind where
  | Float32 | Float64
  deriving DecidableEq, Repr

/-- A Go type as reflect.Type shows it: its kind and, for composite kinds, the
types it is built from. A struct type lists its fields in declaration order as
(name, type, tag). Interface method sets are not represented, and a type name
is kept only where it is needed: a type declared in terms of itself
(type P *P, type S []S, type M map[string]M, type T struct with a field *T) is
written out once, and each place inside it where the declared type occurs
again is `named`, with the name and the kind of that type; so type S []S is
`slice (named "S" Kind.Slice)`. -/
inductive Ty where
  | bool
  | int (k : IntKind)
  | uint (k : UintKind)
  | float (k : FloatKind)
  | complex64
  | complex128
  | string
  | interface
  | func
  | unsafePointer
  | chan (elem : Ty)
  | array (len : Nat) (elem : Ty)
  | slice (elem : Ty)
  | ptr (elem : Ty)
  | map (key : Ty) (elem : Ty)
  | struct (name : String) (fields : List (String × Ty × String))
  | named (name : String) (kind : Kind)

/-- A Go value as reflect.Value shows it. `invalid` is the zero Value, which is
what reflect.ValueOf(nil) returns. `iface` is a value of interface kind (an
element of a []interface{}, say): nil or holding a concrete value. A nil slice,
pointer or map carries `none`. The entries of a map are listed in the order in
which MapRange enumerates them. Of a value of complex, chan, func or unsafe
pointer kind, which the encoder never looks into, only the type and whether it
is nil are kept. -/
inductive Value where
  | invalid
  | bool (b : Bool)
  | int (k : IntKind) (i : Int)
  | uint (k : UintKind) (u : Nat)
  | float (k : FloatKind) (bits : Nat)
  | string (s : List Char)
  | iface (x : Option Value)
  | array (elem : Ty) (xs : List Value)
  | slice (elem : Ty) (xs : Option (List Value))
  | ptr (elem : Ty) (x : Option Value)
  | map (key : Ty) (elem : Ty) (entries : Option (List (Value × Value)))
  | struct (name : String) (decl : List (String × Ty × String)) (fields : List Value)
  | complex64 (bits : Nat)
  | complex128 (bits : Nat)
  | chan (elem : Ty) (isNil : Bool)
  | func (isNil : Bool)
  | unsafePointer (isNil : Bool)

/-- The reflect.Kind of a signed integer kind. -/
def IntKind.Kind : IntKind → Kind
  | .Int => .Int
  | .Int8 => .Int8
  | .Int16 => .Int16
  | .Int32 => .Int32
  | .Int64 => .Int64

/-- The reflect.Kind of an unsigned integer kind. -/
def UintKind.Kind : UintKind → Kind
  | .Uint => .Uint
  | .Uint8 => .Uint8
  | .Uint16 => .Uint16
  | .Uint32 => .Uint32
  | .Uint64 => .Uint64
  | .Uintptr => .Uintptr

/-- The reflect.Kind of a floating-point kind. -/
def FloatKind.Kind : FloatKind → Kind
  | .Float32 => .Float32
  | .Float64 => .Float64

/-- The method reflect.Type.Kind. -/
def Ty.Kind : Ty → Kind
  | .bool => .Bool
  | .int k => k.Kind
  | .uint k => k.Kind
  | .float k => k.Kind
  | .complex64 => .Complex64
  | .complex128 => .Complex128
  | .string => .String
  | .interface => .Interface
  | .func => .Func
  | .unsafePointer => .UnsafePointer
  | .chan _ => .Chan
  | .array _ _ => .Array
  | .slice _ => .Slice
  | .ptr _ => .Ptr
  | .map _ _ => .Map
  | .struct _ _ => .Struct
  | .named _ k => k

/-- An error value the encoder can produce: `&UnsupportedTypeError{Type}`, an
error made by fmt.Errorf with the given text, or the struct `bencodeError{err}`
that wraps another error. A bencodeError is not the error it wraps: it has no
Unwrap method, and only its Error text is that of the wrapped error. -/
inductive Error where
  | UnsupportedTypeError (type : Ty)
  | errorf (msg : String)
  | bencodeError (err : Error)

/-- What stops a call: a panic carrying the `bencodeError` wrapper raised by
encodeState.error (given here by the error it wraps), a panic carrying a
`*reflect.ValueError` (method, kind), a panic carrying a plain text, or the
fatal run-time error "stack overflow", with which the program ends when a
recursion never returns; recover does not stop that one. -/
inductive Panic where
  | bencodeError (err : Error)
  | ValueError (method : String) (kind : Kind)
  | text (msg : String)
  | stackOverflow

/-- The method reflect.Value.Kind; the zero Value has kind Invalid. -/
def Value.Kind : Value → Kind
  | .invalid => .Invalid
  | .bool _ => .Bool
  | .int k _ => k.Kind
  | .uint k _ => k.Kind
  | .float k _ => k.Kind
  | .string _ => .String
  | .iface _ => .Interface
  | .array _ _ => .Array
  | .slice _ _ => .Slice
  | .ptr _ _ => .Ptr
  | .map _ _ _ => .Map
  | .struct _ _ _ => .Struct
  | .complex64 _ => .Complex64
  | .complex128 _ => .Complex128
  | .chan _ _ => .Chan
  | .func _ => .Func
  | .unsafePointer _ => .UnsafePointer

/-- The method reflect.Value.IsValid. -/
def Value.IsValid : Value → Bool
  | .invalid => false
  | _ => true

/-- The method reflect.Value.Type; it panics on the zero Value. -/
def Value.TypeOf : Value → Except Panic Ty
  | .invalid => .error (.ValueError "reflect.Value.Type" .Invalid)
  | .bool _ => .ok .bool
  | .int k _ => .ok (.int k)
  | .uint k _ => .ok (.uint k)
  | .float k _ => .ok (.float k)
  | .string _ => .ok .string
  | .iface _ => .ok .interface
  | .array el xs => .ok (.array xs.length el)
  | .slice el _ => .ok (.slice el)
  | .ptr el _ => .ok (.ptr el)
  | .map k el _ => .ok (.map k el)
  | .struct n d _ => .ok (.struct n d)
  | .complex64 _ => .ok .complex64
  | .complex128 _ => .ok .complex128
  | .chan el _ => .ok (.chan el)
  | .func _ => .ok .func
  | .unsafePointer _ => .ok .unsafePointer

/-- The method reflect.Value.Bool; it panics unless the kind is Bool. -/
def Value.toBool : Value → Except Panic Bool
  | .bool b => .ok b
  | v => .error (.ValueError "reflect.Value.Bool" v.Kind)

/-- The method reflect.Value.Int; it panics unless the kind is a signed integer
kind. -/
def Value.toInt : Value → Except Panic Int
  | .int _ i => .ok i
  | v => .error (.ValueError "reflect.Value.Int" v.Kind)

/-- The method reflect.Value.Uint; it panics unless the kind is an unsigned
integer kind. -/
def Value.toUint : Value → Except Panic Nat
  | .uint _ u => .ok u
  | v => .error (.ValueError "reflect.Value.Uint" v.Kind)

/-- The method reflect.Value.String; it does not panic: for a value that is not
a string it returns a placeholder text (kept here as one fixed text for every
valid non-string value). -/
def Value.toStr : Value → List Char
  | .string s => s
  | .invalid => "<invalid Value>".toList
  | _ => "<Value>".toList

/-- The method reflect.Value.IsNil; it panics unless the kind is chan, func,
interface, map, pointer, slice or unsafe pointer. -/
def Value.IsNil : Value → Except Panic Bool
  | .iface x => .ok x.isNone
  | .slice _ xs => .ok xs.isNone
  | .ptr _ x => .ok x.isNone
  | .map _ _ es => .ok es.isNone
  | .chan _ b => .ok b
  | .func b => .ok b
  | .unsafePointer b => .ok b
  | v => .error (.ValueError "reflect.Value.IsNil" v.Kind)

/-- The method reflect.Value.Len for the kinds the encoder meets (array, slice,
map, string); it panics for the other kinds. -/
def Value.Len : Value → Except Panic Nat
  | .array _ xs => .ok xs.length
  | .slice _ none => .ok 0
  | .slice _ (some xs) => .ok xs.length
  | .map _ _ none => .ok 0
  | .map _ _ (some es) => .ok es.length
  | .string s => .ok s.length
  | v => .error (.ValueError "reflect.Value.Len" v.Kind)

/-- The method reflect.Value.Index on an array or a slice; it panics when the
index is out of range and for the other kinds. -/
def Value.Index : Value → Nat → Except Panic Value
  | .array _ xs, i =>
    match xs.get? i with
    | some x => .ok x
    | none => .error (.text "reflect: array index out of range")
  | .slice _ (some xs), i =>
    match xs.get? i with
    | some x => .ok x
    | none => .error (.text "reflect: slice index out of range")
  | .slice _ none, _ => .error (.text "reflect: slice index out of range")
  | v, _ => .error (.ValueError "reflect.Value.Index" v.Kind)

/-- The method reflect.Value.Elem on an interface or a pointer: the value held,
or the zero Value when nil; it panics for the other kinds. -/
def Value.Elem : Value → Except Panic Value
  | .iface (some x) => .ok x
  | .iface none => .ok .invalid
  | .ptr _ (some x) => .ok x
  | .ptr _ none => .ok .invalid
  | v => .error (.ValueError "reflect.Value.Elem" v.Kind)

/-- The pairs (mi.Key(), mi.Value()) that a reflect.Value.MapRange iterator
yields, in iteration order; it panics unless the kind is Map. -/
def Value.MapRange : Value → Except Panic (List (Value × Value))
  | .map _ _ none => .ok []
  | .map _ _ (some es) => .ok es
  | v => .error (.ValueError "reflect.Value.MapRange" v.Kind)

/-! ## strconv, string comparison, sort -/

/-- The text strconv.FormatUint(u, 10) returns: the decimal digits of u, most
significant first. -/
def FormatUint (u : Nat) : List Char :=
  Nat.toDigits 10 u

/-- The text strconv.FormatInt(i, 10) returns: a minus sign when i is negative,
then the decimal digits of the magnitude of i. -/
def FormatInt (i : Int) : List Char :=
  if i < 0 then '-' :: Nat.toDigits 10 i.natAbs else Nat.toDigits 10 i.natAbs

/-- The call strconv.AppendInt(dst, i, 10). -/
def AppendInt (dst : List Char) (i : Int) : List Char :=
  dst ++ FormatInt i

/-- The call strconv.AppendUint(dst, u, 10). -/
def AppendUint (dst : List Char) (u : Nat) : List Char :=
  dst ++ FormatUint u

/-- Go's `<` on strings: bytewise lexicographic order, a proper prefix being
smaller. -/
def stringLess : List Char → List Char → Bool
  | _, [] => false
  | [], _ :: _ => true
  | a :: s, b :: t =>
    if a.toNat < b.toNat then true
    else if b.toNat < a.toNat then false
    else stringLess s t

/-- The call sort.Slice(x, less), with less given on the elements. The result is
a permutation of x in which no element is less than an earlier one; it is
computed here by insertion sort, the algorithm package sort itself runs on short
slices. -/
def sortSlice {α : Type} (less : α → α → Bool) (x : List α) : List α :=
  List.insertionSort (fun a b => less b a = false) x

/-! ## The encoder state -/

/-- The struct encodeState: the embedded bytes.Buffer holding the accumulated
output. The scratch array only lends its storage to strconv and is never read
back, so it is not represented. -/
structure encodeState where
  buf : List Char

/-- The method bytes.Buffer.WriteByte. -/
def encodeState.WriteByte (e : encodeState) (c : Char) : encodeState :=
  ⟨e.buf ++ [c]⟩

/-- The method bytes.Buffer.Write. -/
def encodeState.Write (e : encodeState) (p : List Char) : encodeState :=
  ⟨e.buf ++ p⟩

/-- The method bytes.Buffer.WriteString. -/
def encodeState.WriteString (e : encodeState) (s : List Char) : encodeState :=
  ⟨e.buf ++ s⟩

/-- The method bytes.Buffer.Bytes. -/
def encodeState.Bytes (e : encodeState) : List Char :=
  e.buf

/-- The state an encoder step leaves behind: the buffer as it stands, and the
panic that stopped the step, if one did. -/
structure Res where
  e : encodeState
  panic : Option Panic

/-- A step that ran to its end. -/
def Res.done (e : encodeState) : Res :=
  ⟨e, none⟩

/-- A step stopped by a panic. -/
def Res.panicked (e : encodeState) (p : Panic) : Res :=
  ⟨e, some p⟩

/-- Sequencing of statements: the next statement runs only if no panic is
under way. -/
def Res.andThen (r : Res) (next : encodeState → Res) : Res :=
  match r.panic with
  | none => next r.e
  | some _ => r

/-- The type encoderFunc. -/
abbrev encoderFunc := encodeState → Value → Res

/-- The function newEncodeState. -/
def newEncodeState : encodeState :=
  ⟨[]⟩

/-- The method encodeState.error: panic with the error wrapped in
bencodeError. -/
def encodeState.error (e : encodeState) (err : Error) : Res :=
  Res.panicked e (.bencodeError err)

/-! ## The encoders -/

/-- The function invalidValueEncoder: it writes nothing. -/
def invalidValueEncoder : encoderFunc := fun e _ =>
  Res.done e

/-- The function boolEncoder. -/
def boolEncoder : encoderFunc := fun e v =>
  match v.toBool with
  | .error p => Res.panicked e p
  | .ok true => Res.done (e.WriteString "i1e".toList)
  | .ok false => Res.done (e.WriteString "i0e".toList)

/-- The function intEncoder. -/
def intEncoder : encoderFunc := fun e v =>
  match v.toInt with
  | .error p => Res.panicked e p
  | .ok i =>
    let buf := AppendInt [] i
    Res.done (((e.WriteByte 'i').Write buf).WriteByte 'e')

/-- The function uintEncoder. -/
def uintEncoder : encoderFunc := fun e v =>
  match v.toUint with
  | .error p => Res.panicked e p
  | .ok u =>
    let buf := AppendUint [] u
    Res.done (((e.WriteByte 'i').Write buf).WriteByte 'e')

/-- The function stringEncoder. The length is handed to uintEncoder as
reflect.ValueOf(len(s)), a value of kind Int. -/
def stringEncoder : encoderFunc := fun e v =>
  let s := v.toStr
  (uintEncoder e (Value.int .Int s.length)).andThen fun e =>
    Res.done ((e.WriteByte ':').WriteString s)

/-- The function unsupportedTypeEncoder. -/
def unsupportedTypeEncoder : encoderFunc := fun e v =>
  match v.TypeOf with
  | .error p => Res.panicked e p
  | .ok t => e.error (Error.UnsupportedTypeError t)

/-- The function interfaceEncoder; `reflectValue` is the method
encodeState.reflectValue it calls on the value held. -/
def interfaceEncoder (reflectValue : encoderFunc) : encoderFunc := fun e v =>
  match v.IsNil with
  | .error p => Res.panicked e p
  | .ok true => Res.done e
  | .ok false =>
    match v.Elem with
    | .error p => Res.panicked e p
    | .ok x => reflectValue e x

/-- The struct arrayEncoder. -/
structure arrayEncoder where
  elEncoder : encoderFunc

/-- The method arrayEncoder.encode. The loop runs over i = 0, ..., n-1; its body
is guarded by `i > 0` as a whole. -/
def arrayEncoder.encode (ae : arrayEncoder) : encoderFunc := fun e v =>
  let e := e.WriteByte 'l'
  match v.Len with
  | .error p => Res.panicked e p
  | .ok n =>
    ((List.range n).foldl
      (fun r i => r.andThen fun e =>
        if i > 0 then
          let e := e.WriteByte ','
          match v.Index i with
          | .error p => Res.panicked e p
          | .ok x => ae.elEncoder e x
        else Res.done e)
      (Res.done e)).andThen fun e =>
    Res.done (e.WriteByte 'e')

/-- The function newArrayEncoder, given typeEncoder(t.Elem()). -/
def newArrayEncoder (elEncoder : encoderFunc) : encoderFunc :=
  (arrayEncoder.mk elEncoder).encode

/-- The struct sliceEncoder. -/
structure sliceEncoder where
  arEncoder : encoderFunc

/-- The method sliceEncoder.encode. -/
def sliceEncoder.encode (se : sliceEncoder) : encoderFunc := fun e v =>
  match v.IsNil with
  | .error p => Res.panicked e p
  | .ok true => Res.done ((e.WriteByte 'l').WriteByte 'e')
  | .ok false => se.arEncoder e v

/-- The function newSliceEncoder, given typeEncoder(t.Elem()). -/
def newSliceEncoder (elEncoder : encoderFunc) : encoderFunc :=
  (sliceEncoder.mk (newArrayEncoder elEncoder)).encode

/-- The struct ptrEncoder. -/
structure ptrEncoder where
  encoder : encoderFunc

/-- The method ptrEncoder.encode: a nil pointer raises an error; there is no
other statement. -/
def ptrEncoder.encode (_pe : ptrEncoder) : encoderFunc := fun e v =>
  match v.IsNil with
  | .error p => Res.panicked e p
  | .ok true => e.error (Error.errorf "json: could not encode nil value")
  | .ok false => Res.done e

/-- The function newPtrEncoder, given typeEncoder(t.Elem()). -/
def newPtrEncoder (elEncoder : encoderFunc) : encoderFunc :=
  (ptrEncoder.mk elEncoder).encode

/-- The struct mapEncoder. -/
structure mapEncoder where
  valEncoder : encoderFunc
  keyEncoder : encoderFunc

/-- The element type of the slice `keys` in mapEncoder.encode. -/
structure mapKey where
  kv : Value
  vv : Value
  ks : List Char

/-- The switch on keys[i].kv.Kind() in mapEncoder.encode: the text of a key. -/
def mapKeyText (kv : Value) : Except Panic (List Char) :=
  match kv.Kind with
  | .String => .ok kv.toStr
  | .Int | .Int8 | .Int16 | .Int32 | .Int64 =>
    match kv.toInt with
    | .error p => .error p
    | .ok i => .ok (FormatInt i)
  | .Uint | .Uint8 | .Uint16 | .Uint32 | .Uint64 | .Uintptr =>
    match kv.toUint with
    | .error p => .error p
    | .ok u => .ok (FormatUint u)
  | _ => .error (Panic.text "unexpected map key type")

/-- The first loop of mapEncoder.encode: fill `keys` from the map iterator. -/
def mapKeys : List (Value × Value) → Except Panic (List mapKey)
  | [] => .ok []
  | (kv, vv) :: rest =>
    match mapKeyText kv with
    | .error p => .error p
    | .ok ks =>
      match mapKeys rest with
      | .error p => .error p
      | .ok keys => .ok (⟨kv, vv, ks⟩ :: keys)

/-- The method mapEncoder.encode. -/
def mapEncoder.encode (me : mapEncoder) : encoderFunc := fun e v =>
  match v.IsNil with
  | .error p => Res.panicked e p
  | .ok true => Res.done ((e.WriteByte 'd').WriteByte 'e')
  | .ok false =>
    match v.MapRange with
    | .error p => Res.panicked e p
    | .ok entries =>
      match mapKeys entries with
      | .error p => Res.panicked e p
      | .ok keys =>
        let keys := sortSlice (fun a b => stringLess a.ks b.ks) keys
        let e := e.WriteByte 'd'
        (keys.foldl
          (fun r k => r.andThen fun e =>
            (me.keyEncoder e k.kv).andThen fun e => me.valEncoder e k.vv)
          (Res.done e)).andThen fun e =>
        Res.done (e.WriteByte 'e')

/-- The function newMapEncoder, given t.Key() and what the calls
typeEncoder(t.Elem()) and typeEncoder(t.Key()) come to (`none`: the call never
returns). For a key kind outside the switch the function returns before it
makes these calls; otherwise it returns only if both do. -/
def newMapEncoder (key : Ty) (valEncoder keyEncoder : Option encoderFunc) :
    Option encoderFunc :=
  match key with
  | .string | .int _ | .uint _ =>
    match valEncoder, keyEncoder with
    | some valEncoder, some keyEncoder => some (mapEncoder.mk valEncoder keyEncoder).encode
    | _, _ => none
  | _ => some unsupportedTypeEncoder

/-- The struct structField; it has no members. -/
structure structField where

/-- The struct structEncoder. -/
structure structEncoder where
  fields : List structField

/-- The method structEncoder.encode; the body of its loop over the fields is
empty. -/
def structEncoder.encode (se : structEncoder) : encoderFunc := fun e _ =>
  let e := e.WriteByte 'd'
  let e := se.fields.foldl (fun e _ => e) e
  Res.done (e.WriteByte 'e')

/-- The function getStructFields; it returns the empty slice for every type. -/
def getStructFields (_t : Ty) : List structField :=
  []

/-- Modelled from the spec: the body of newStructEncoder is missing from the
source (the function is declared with an empty body). It is wired the way
newArrayEncoder, newPtrEncoder and the spec's encoder for records are: the
record's field descriptors are taken from getStructFields and the encoder
returned is the encode method of a structEncoder over them. -/
def newStructEncoder (t : Ty) : encoderFunc :=
  (structEncoder.mk (getStructFields t)).encode

/-- The function newTypeEncoder: the encoder it returns, or `none` when the
call never returns. `reflectValue` is the method the interface encoder calls
back. The switch on t.Kind() is written as a match on the shape of t, and
t.Elem() and t.Key() are taken here rather than in the constructor functions.
There is no cache (typeEncoder says `todo: cache ???`), and the encoder of an
array, slice, pointer or map type is built from the encoder of its element
type before anything is encoded: when building the encoder of a type comes
back to that same type (`named`), it starts over and never ends. -/
def newTypeEncoder (reflectValue : encoderFunc) : Ty → Option encoderFunc
  | .bool => some boolEncoder
  | .int _ => some intEncoder
  | .uint _ => some uintEncoder
  | .string => some stringEncoder
  | .interface => some (interfaceEncoder reflectValue)
  | .array _ el => (newTypeEncoder reflectValue el).map newArrayEncoder
  | .slice el => (newTypeEncoder reflectValue el).map newSliceEncoder
  | .ptr el => (newTypeEncoder reflectValue el).map newPtrEncoder
  | .map k el =>
    newMapEncoder k (newTypeEncoder reflectValue el) (newTypeEncoder reflectValue k)
  | .struct n d => some (newStructEncoder (.struct n d))
  | .named _ _ => none
  | _ => some unsupportedTypeEncoder

/-- The function typeEncoder. -/
def typeEncoder (reflectValue : encoderFunc) (t : Ty) : Option encoderFunc :=
  newTypeEncoder reflectValue t

/-- The function valueEncoder. When typeEncoder never returns, what stands for
the encoder is the end of the program by stack overflow. -/
def valueEncoder (reflectValue : encoderFunc) (v : Value) : encoderFunc :=
  if !v.IsValid then invalidValueEncoder
  else
    match v.TypeOf with
    | .error p => fun e _ => Res.panicked e p
    | .ok t =>
      match typeEncoder reflectValue t with
      | some f => f
      | none => fun e _ => Res.panicked e Panic.stackOverflow

/-- The method encodeState.reflectValue. The first argument bounds how many
times the method may be re-entered through interfaceEncoder; when it is used up
the call stops with a stack overflow. -/
def reflectValue : Nat → encoderFunc
  | 0 => fun e _ => Res.panicked e Panic.stackOverflow
  | n + 1 => fun e v => valueEncoder (reflectValue n) v e v

mutual
/-- The nesting depth of a value: a bound on the number of values reached
through Elem (interface values, pointers) that are nested inside one another. -/
def Value.depth : Value → Nat
  | .iface (some x) => x.depth + 1
  | .array _ xs => depthList xs
  | .slice _ (some xs) => depthList xs
  | .ptr _ (some x) => x.depth + 1
  | .map _ _ (some es) => depthEntries es
  | .struct _ _ fs => depthList fs
  | _ => 0
/-- The largest depth among the values of a list. -/
def depthList : List Value → Nat
  | [] => 0
  | x :: xs => max x.depth (depthList xs)
/-- The largest depth among the keys and values of a list of map entries. -/
def depthEntries : List (Value × Value) → Nat
  | [] => 0
  | (k, v) :: es => max (max k.depth v.depth) (depthEntries es)
end

/-- What a Go call does: it returns a value, or it does not return: a panic
leaves it, or the program ends with a fatal error. -/
inductive Returned (α : Type) where
  | value (a : α)
  | panics (p : Panic)

/-- The method encodeState.marshal applied to reflect.ValueOf(v): the state it
leaves and the error it returns. A recovered bencodeError is itself the error
returned (`err = be`), wrapper included; any other panic is raised again, and
a stack overflow is not recovered at all. -/
def encodeState.marshal (e : encodeState) (v : Value) :
    encodeState × Returned (Option Error) :=
  let r := reflectValue (v.depth + 1) e v
  match r.panic with
  | none => (r.e, .value none)
  | some (.bencodeError err) => (r.e, .value (some (Error.bencodeError err)))
  | some p => (r.e, .panics p)

/-- The function Marshal applied to reflect.ValueOf(v): the pair (bytes, error)
it returns, `none` being nil. The bytes are append([]byte(nil), e.Bytes()...),
which is nil when the buffer is empty. -/
def Marshal (v : Value) : Returned (Option (List Char) × Option Error) :=
  let e := newEncodeState
  match e.marshal v with
  | (_, .panics p) => .panics p
  | (_, .value (some err)) => .value (none, some err)
  | (e, .value none) =>
    match e.Bytes with
    | [] => .value (none, none)
    | b :: bs => .value (some (b :: bs), none)

/-- The function Unmarshal: it returns the error "not implemeted" for every
input. -/
def Unmarshal (_data : List Char) (_v : Value) : Option Error :=
  some (Error.errorf "not implemeted")


/-! ## Notions the statements use -/

/-- A digit run in canonical form: it is not empty, it holds ASCII digits only,
and it starts with the digit 0 only when it is exactly "0". -/
def canonicalDigits (ds : List Char) : Prop :=
  ds ≠ [] ∧ (∀ c ∈ ds, c.isDigit = true) ∧ (ds.head? = some '0' → ds = ['0'])

instance (ds : List Char) : Decidable (canonicalDigits ds) := by
  unfold canonicalDigits
  infer_instance

/-- The number a run of decimal digits denotes. -/
def decimalValue (ds : List Char) : Nat :=
  ds.foldl (fun acc c => 10 * acc + (c.toNat - 48)) 0

/-- The key-text of a map key: the text under which mapEncoder.encode sorts the
entry (the string itself, or the decimal text of an integer key). -/
def keyText (kv : Value) : List Char :=
  match mapKeyText kv with
  | .ok ks => ks
  | .error _ => []

/-- Whether the call typeEncoder(t) returns. It does not when building the
encoder comes back to the type being built, that is when t contains itself
through element types of arrays, slices, pointers and maps of an accepted key
kind; the encoder of a struct, of an interface and of a map of another key kind
is made without looking at the types inside. -/
def typeEncoderReturns : Ty → Bool
  | .named _ _ => false
  | .array _ el => typeEncoderReturns el
  | .slice el => typeEncoderReturns el
  | .ptr el => typeEncoderReturns el
  | .map k el =>
    match k with
    | .string | .int _ | .uint _ => typeEncoderReturns el
    | _ => true
  | _ => true

/-- The relation `reordered n v w`: w is the value v with some of the maps in
it presented in another iteration order. A map so presented has the same
entries, their keys pairwise distinct and of the map's key type; it may be v
itself or lie inside v as the value held by an interface, an element of an
array or slice, or a value of a map, at most n levels down. -/
def reordered : Nat → Value → Value → Prop
  | 0, v, w => v = w
  | n + 1, v, w =>
    v = w ∨
    (∃ x y, v = .iface (some x) ∧ w = .iface (some y) ∧ reordered n x y) ∨
    (∃ el xs ys, v = .array el xs ∧ w = .array el ys ∧ List.Forall₂ (reordered n) xs ys) ∨
    (∃ el xs ys, v = .slice el (some xs) ∧ w = .slice el (some ys) ∧
      List.Forall₂ (reordered n) xs ys) ∨
    (∃ kt vt es es2 fs, v = .map kt vt (some es) ∧ w = .map kt vt (some fs) ∧
      es.Perm es2 ∧
      List.Forall₂ (fun a b => a.1 = b.1 ∧ reordered n a.2 b.2) es2 fs ∧
      (es.map Prod.fst).Nodup ∧ ∀ x ∈ es, x.1.TypeOf = .ok kt)

/-! ## Values of the test file -/

/-- The fields of the struct type omitEmpty of bencode_test.go, in declaration
order, each with its type and its tag. -/
def omitEmpty : List (String × Ty × String) :=
  [("Age", .int .Int, ""),
   ("Array", .slice .string, "bencode:\",omitempty\""),
   ("FirstName", .string, ""),
   ("Ignored", .string, "bencode:\",omitempty\""),
   ("LastName", .string, ""),
   ("Renamed", .string, "bencode:\"otherName,omitempty\"")]

/-- The value oe of TestMarshalWithOmitEmptyFieldEmpty:
omitEmpty{42, []string{}, "Jack", "", "Daniel", ""}. -/
def oeEmpty : Value :=
  .struct "omitEmpty" omitEmpty
    [.int .Int 42, .slice .string (some []), .string "Jack".toList, .string [],
     .string "Daniel".toList, .string []]

/-- The value map[int]map[int]int{1: m}, where m is the map whose iterator presents
the given entries in the given order. -/
def mapOfMap (inner : List (Value × Value)) : Value :=
  .map (.int .Int) (.map (.int .Int) (.int .Int))
    (some [(.int .Int 1, .map (.int .Int) (.int .Int) (some inner))])

/-- The bit pattern of the float64 value 1.5. -/
def float64_1_5 : Nat :=
  0x3FF8000000000000

/-! ## Decimal texts -/

/-- The digit loop of the decimal printer, on a positive number and with enough
fuel, writes the base-10 digits of the number, most significant first. -/
theorem toDigitsCore_eq_digits (fuel : Nat) : ∀ (n : Nat) (acc : List Char), 0 < n → n < fuel →
    Nat.toDigitsCore 10 fuel n acc = ((Nat.digits 10 n).reverse.map Nat.digitChar) ++ acc := by
  induction fuel with
  | zero => intro n acc _ h; omega
  | succ fuel ih =>
    intro n acc hn hlt
    rw [Nat.digits_def' (by norm_num) hn]
    simp only [Nat.toDigitsCore]
    by_cases h0 : n / 10 = 0
    · simp [h0]
    · rw [if_neg h0, ih (n / 10) _ (Nat.pos_of_ne_zero h0) (by omega)]
      simp

theorem FormatUint_zero : FormatUint 0 = ['0'] := rfl

theorem FormatUint_pos (u : Nat) (h : 0 < u) :
    FormatUint u = (Nat.digits 10 u).reverse.map Nat.digitChar := by
  unfold FormatUint Nat.toDigits
  rw [toDigitsCore_eq_digits (u + 1) u [] h (by omega)]
  simp

theorem digitChar_isDigit (d : Nat) (h : d < 10) : (Nat.digitChar d).isDigit = true := by
  interval_cases d <;> rfl

theorem digitChar_eq_zero (d : Nat) (h : d < 10) (h0 : Nat.digitChar d = '0') : d = 0 := by
  interval_cases d <;> first | rfl | (exfalso; revert h0; decide)

theorem digitChar_toNat (d : Nat) (h : d < 10) : (Nat.digitChar d).toNat = 48 + d := by
  interval_cases d <;> rfl


theorem FormatUint_canonical (u : Nat) : canonicalDigits (FormatUint u) := by
  rcases Nat.eq_zero_or_pos u with rfl | hu
  · decide
  · have hne : Nat.digits 10 u ≠ [] := Nat.digits_ne_nil_iff_ne_zero.mpr (by omega)
    rw [FormatUint_pos u hu]
    refine ⟨by simpa using hne, ?_, ?_⟩
    · intro c hc
      obtain ⟨d, hd, rfl⟩ := List.mem_map.mp hc
      exact digitChar_isDigit d (Nat.digits_lt_base (by norm_num) (List.mem_reverse.mp hd))
    · intro hhead
      exfalso
      rw [List.head?_map, List.head?_reverse, List.getLast?_eq_getLast _ hne] at hhead
      simp only [Option.map_some', Option.some.injEq] at hhead
      have hlt : (Nat.digits 10 u).getLast hne < 10 :=
        Nat.digits_lt_base (by norm_num) (List.getLast_mem hne)
      exact Nat.getLast_digit_ne_zero 10 (by omega) (digitChar_eq_zero _ hlt hhead)

theorem decimalValue_digits (l : List Nat) (h : ∀ d ∈ l, d < 10) :
    decimalValue (l.reverse.map Nat.digitChar) = Nat.ofDigits 10 l := by
  induction l with
  | nil => rfl
  | cons d l ih =>
    have hd : d < 10 := h d (List.mem_cons_self _ _)
    have ih := ih (fun x hx => h x (List.mem_cons_of_mem _ hx))
    unfold decimalValue at ih ⊢
    simp only [List.reverse_cons, List.map_append, List.map_cons, List.map_nil,
      List.foldl_append, List.foldl_cons, List.foldl_nil, ih, Nat.ofDigits_cons,
      digitChar_toNat d hd]
    omega

/-- The digits of FormatUint denote the number formatted. -/
theorem decimalValue_FormatUint (u : Nat) : decimalValue (FormatUint u) = u := by
  rcases Nat.eq_zero_or_pos u with rfl | hu
  · rfl
  · rw [FormatUint_pos u hu, decimalValue_digits _ (fun d hd => Nat.digits_lt_base (by norm_num) hd),
      Nat.ofDigits_digits]

theorem FormatUint_injective (u w : Nat) (h : FormatUint u = FormatUint w) : u = w := by
  rw [← decimalValue_FormatUint u, ← decimalValue_FormatUint w, h]

theorem FormatUint_eq_repr (u : Nat) : FormatUint u = (toString u).toList := rfl

theorem FormatInt_eq_repr (i : Int) : FormatInt i = (toString i).toList := by
  cases i with
  | ofNat m =>
    have h : ¬ ((Int.ofNat m) < 0) := by simp
    simp only [FormatInt, if_neg h]
    rfl
  | negSucc m =>
    have h : (Int.negSucc m) < 0 := Int.negSucc_lt_zero m
    simp only [FormatInt, if_pos h]
    rfl


/-! ## Integers -/

theorem Marshal_int_eq (k : IntKind) (n : Int) :
    Marshal (.int k n) = .value (some ('i' :: (FormatInt n ++ ['e'])), none) := rfl

theorem Marshal_uint_eq (k : UintKind) (u : Nat) :
    Marshal (.uint k u) = .value (some ('i' :: (FormatUint u ++ ['e'])), none) := rfl

/-- C1: for every signed integer n of any width and every unsigned integer u of
any width, Marshal returns no error and the bytes 'i', the decimal
representation of the number, 'e'; in particular Marshal(42) = "i42e",
Marshal(-100) = "i-100e" and Marshal(0) = "i0e". -/
theorem Marshal_integer :
    (∀ (k : IntKind) (n : Int),
      Marshal (.int k n) = .value (some ('i' :: ((toString n).toList ++ ['e'])), none)) ∧
    (∀ (k : UintKind) (u : Nat),
      Marshal (.uint k u) = .value (some ('i' :: ((toString u).toList ++ ['e'])), none)) ∧
    Marshal (.int .Int 42) = .value (some "i42e".toList, none) ∧
    Marshal (.int .Int (-100)) = .value (some "i-100e".toList, none) ∧
    Marshal (.int .Int64 0) = .value (some "i0e".toList, none) := by
  refine ⟨fun k n => ?_, fun k u => ?_, rfl, rfl, rfl⟩
  · rw [Marshal_int_eq, FormatInt_eq_repr]
  · rw [Marshal_uint_eq, FormatUint_eq_repr]

/-- C10: for every signed or unsigned integer, what Marshal emits between the
leading 'i' and the trailing 'e' is an optional '-' followed by a digit run; the
'-' is there exactly when the number is negative (so never for zero), the run
holds ASCII digits only, is not empty and has no leading '0' unless it is
exactly "0"; and the run denotes the magnitude of the number. -/
theorem Marshal_integer_canonical :
    (∀ (k : IntKind) (n : Int), ∃ ds : List Char,
      Marshal (.int k n) =
        .value (some ('i' :: (((if n < 0 then ['-'] else []) ++ ds) ++ ['e'])), none) ∧
      canonicalDigits ds ∧ decimalValue ds = n.natAbs) ∧
    (∀ (k : UintKind) (u : Nat), ∃ ds : List Char,
      Marshal (.uint k u) = .value (some ('i' :: (ds ++ ['e'])), none) ∧
      canonicalDigits ds ∧ decimalValue ds = u) := by
  constructor
  · intro k n
    refine ⟨FormatUint n.natAbs, ?_, FormatUint_canonical _, decimalValue_FormatUint _⟩
    rw [Marshal_int_eq]
    by_cases h : n < 0
    · simp [FormatInt, FormatUint, h]
    · simp [FormatInt, FormatUint, h]
  · intro k u
    exact ⟨FormatUint u, Marshal_uint_eq k u, FormatUint_canonical u, decimalValue_FormatUint u⟩


/-! ## The order on strings and the sort -/

theorem Char_eq_of_toNat (a b : Char) (h : a.toNat = b.toNat) : a = b := by
  rw [← Char.ofNat_toNat a, ← Char.ofNat_toNat b, h]

theorem stringLess_irrefl (s : List Char) : stringLess s s = false := by
  induction s with
  | nil => rfl
  | cons a s ih => simp [stringLess, ih]

theorem stringLess_asymm (s t : List Char) (h : stringLess s t = true) :
    stringLess t s = false := by
  induction s generalizing t with
  | nil => cases t <;> simp_all [stringLess]
  | cons a s ih =>
    cases t with
    | nil => simp [stringLess] at h
    | cons b t =>
      simp only [stringLess] at h ⊢
      split_ifs at h ⊢
      all_goals first | omega | rfl | exact ih t h

theorem stringLess_trans (s t u : List Char) (h1 : stringLess s t = true)
    (h2 : stringLess t u = true) : stringLess s u = true := by
  induction s generalizing t u with
  | nil =>
    cases u with
    | nil => cases t <;> simp [stringLess] at h2
    | cons c u => rfl
  | cons a s ih =>
    cases t with
    | nil => simp [stringLess] at h1
    | cons b t =>
      cases u with
      | nil => simp [stringLess] at h2
      | cons c u =>
        simp only [stringLess] at h1 h2 ⊢
        split_ifs at h1 h2 ⊢
        all_goals first | omega | rfl | exact ih t u h1 h2

theorem stringLess_connected (s t : List Char) (h1 : stringLess s t = false)
    (h2 : stringLess t s = false) : s = t := by
  induction s generalizing t with
  | nil => cases t <;> simp_all [stringLess]
  | cons a s ih =>
    cases t with
    | nil => simp [stringLess] at h2
    | cons b t =>
      simp only [stringLess] at h1 h2
      split_ifs at h1 h2 with h3 h4
      have hab : a = b := Char_eq_of_toNat a b (by omega)
      rw [hab, ih t h1 h2]


theorem FormatInt_injective (i j : Int) (h : FormatInt i = FormatInt j) : i = j := by
  have hdig : ∀ u : Nat, ∀ l, FormatUint u ≠ '-' :: l := by
    intro u l hu
    have hc := (FormatUint_canonical u).2.1 '-' (by rw [hu]; exact List.mem_cons_self _ _)
    revert hc
    decide
  unfold FormatInt at h
  by_cases hi : i < 0 <;> by_cases hj : j < 0
  · rw [if_pos hi, if_pos hj] at h
    have := FormatUint_injective _ _ (List.cons.inj h).2
    omega
  · rw [if_pos hi, if_neg hj] at h
    exact absurd h.symm (hdig _ _)
  · rw [if_neg hi, if_pos hj] at h
    exact absurd h (hdig _ _)
  · rw [if_neg hi, if_neg hj] at h
    have := FormatUint_injective _ _ h
    omega

/-- Two sorted arrangements of the same keys coincide when the key-texts are
pairwise distinct: the order sort.Slice leaves does not depend on the order it
was given, nor on how it breaks ties. -/
theorem sorted_keys_unique (l1 l2 : List mapKey) (hp : l1.Perm l2)
    (hnd : (l1.map mapKey.ks).Nodup)
    (h1 : l1.Sorted (fun a b => stringLess b.ks a.ks = false))
    (h2 : l2.Sorted (fun a b => stringLess b.ks a.ks = false)) : l1 = l2 := by
  have strict : ∀ l : List mapKey, (l.map mapKey.ks).Nodup →
      l.Sorted (fun a b => stringLess b.ks a.ks = false) →
      l.Sorted (fun a b => stringLess a.ks b.ks = true) := by
    intro l hn hs
    have hne : l.Pairwise (fun a b => a.ks ≠ b.ks) := (List.pairwise_map).mp hn
    refine (hs.and hne).imp ?_
    rintro a b ⟨hab, hk⟩
    by_contra hlt
    exact hk (stringLess_connected _ _ (by simpa using hlt) hab)
  have hnd2 : (l2.map mapKey.ks).Nodup := (hp.map mapKey.ks).nodup_iff.mp hnd
  exact @List.eq_of_perm_of_sorted _ (fun a b => stringLess a.ks b.ks = true)
    ⟨fun a b hab hba => by rw [stringLess_asymm _ _ hab] at hba; cases hba⟩
    _ _ hp (strict l1 hnd h1) (strict l2 hnd2 h2)

theorem sortSlice_sorted (l : List mapKey) :
    (sortSlice (fun a b => stringLess a.ks b.ks) l).Sorted
      (fun a b => stringLess b.ks a.ks = false) := by
  unfold sortSlice
  refine @List.sorted_insertionSort _ (fun a b : mapKey => stringLess b.ks a.ks = false) _
    ⟨fun a b => ?_⟩ ⟨fun a b c hab hbc => ?_⟩ l
  · by_cases h : stringLess b.ks a.ks = true
    · exact Or.inr (stringLess_asymm _ _ h)
    · exact Or.inl (by simpa using h)
  · by_contra hca
    have hca : stringLess c.ks a.ks = true := by simpa using hca
    by_cases hba : stringLess a.ks b.ks = true
    · rw [stringLess_trans _ _ _ hca hba] at hbc
      cases hbc
    · have : a.ks = b.ks := stringLess_connected _ _ (by simpa using hba) hab
      rw [this, hbc] at hca
      cases hca

theorem sortSlice_perm (l : List mapKey) :
    (sortSlice (fun a b => stringLess a.ks b.ks) l).Perm l :=
  List.perm_insertionSort _ l

theorem sortSlice_eq_of_perm (l1 l2 : List mapKey) (hp : l1.Perm l2)
    (hnd : (l1.map mapKey.ks).Nodup) :
    sortSlice (fun a b => stringLess a.ks b.ks) l1 =
      sortSlice (fun a b => stringLess a.ks b.ks) l2 := by
  refine sorted_keys_unique _ _ (((sortSlice_perm l1).trans hp).trans (sortSlice_perm l2).symm)
    ?_ (sortSlice_sorted l1) (sortSlice_sorted l2)
  exact (((sortSlice_perm l1).map mapKey.ks).nodup_iff).mpr hnd


/-! ## Maps -/

theorem typed_string (v : Value) (h : v.TypeOf = .ok .string) : ∃ s, v = .string s := by
  cases v <;> simp [Value.TypeOf] at h
  exact ⟨_, rfl⟩

theorem typed_int (k : IntKind) (v : Value) (h : v.TypeOf = .ok (.int k)) :
    ∃ i, v = .int k i := by
  cases v <;> simp [Value.TypeOf] at h
  subst h
  exact ⟨_, rfl⟩

theorem typed_uint (k : UintKind) (v : Value) (h : v.TypeOf = .ok (.uint k)) :
    ∃ u, v = .uint k u := by
  cases v <;> simp [Value.TypeOf] at h
  subst h
  exact ⟨_, rfl⟩

theorem keyText_string (s : List Char) : keyText (.string s) = s := rfl

theorem keyText_int (k : IntKind) (i : Int) : keyText (.int k i) = FormatInt i := by
  cases k <;> rfl

theorem keyText_uint (k : UintKind) (u : Nat) : keyText (.uint k u) = FormatUint u := by
  cases k <;> rfl

/-- On a key of a type newMapEncoder accepts, the switch of mapEncoder.encode
finds the key-text. -/
theorem mapKeyText_of_type (kt : Ty) (kv : Value) (hty : kv.TypeOf = .ok kt)
    (hk : kt = .string ∨ (∃ k, kt = .int k) ∨ (∃ k, kt = .uint k)) :
    mapKeyText kv = .ok (keyText kv) := by
  rcases hk with rfl | ⟨k, rfl⟩ | ⟨k, rfl⟩
  · obtain ⟨s, rfl⟩ := typed_string kv hty
    rfl
  · obtain ⟨i, rfl⟩ := typed_int k kv hty
    cases k <;> rfl
  · obtain ⟨u, rfl⟩ := typed_uint k kv hty
    cases k <;> rfl

theorem keyText_injective (kt : Ty) (a b : Value) (ha : a.TypeOf = .ok kt)
    (hb : b.TypeOf = .ok kt)
    (hk : kt = .string ∨ (∃ k, kt = .int k) ∨ (∃ k, kt = .uint k))
    (h : keyText a = keyText b) : a = b := by
  rcases hk with rfl | ⟨k, rfl⟩ | ⟨k, rfl⟩
  · obtain ⟨s, rfl⟩ := typed_string a ha
    obtain ⟨t, rfl⟩ := typed_string b hb
    rw [keyText_string, keyText_string] at h
    rw [h]
  · obtain ⟨i, rfl⟩ := typed_int k a ha
    obtain ⟨j, rfl⟩ := typed_int k b hb
    rw [keyText_int, keyText_int] at h
    rw [FormatInt_injective i j h]
  · obtain ⟨i, rfl⟩ := typed_uint k a ha
    obtain ⟨j, rfl⟩ := typed_uint k b hb
    rw [keyText_uint, keyText_uint] at h
    rw [FormatUint_injective i j h]

theorem mapKeys_eq (es : List (Value × Value))
    (h : ∀ e ∈ es, mapKeyText e.1 = .ok (keyText e.1)) :
    mapKeys es = .ok (es.map fun e => ⟨e.1, e.2, keyText e.1⟩) := by
  induction es with
  | nil => rfl
  | cons e es ih =>
    obtain ⟨kv, vv⟩ := e
    have h1 := h (kv, vv) (List.mem_cons_self _ _)
    have h2 := ih (fun e he => h e (List.mem_cons_of_mem _ he))
    simp only [mapKeys, h1, h2, List.map_cons]

theorem depthEntries_cons (e : Value × Value) (es : List (Value × Value)) :
    depthEntries (e :: es) = max (max e.1.depth e.2.depth) (depthEntries es) := by
  obtain ⟨k, v⟩ := e
  simp only [depthEntries]

theorem depthEntries_perm (es1 es2 : List (Value × Value)) (hp : es1.Perm es2) :
    depthEntries es1 = depthEntries es2 := by
  induction hp with
  | nil => rfl
  | cons e _ ih => rw [depthEntries_cons, depthEntries_cons, ih]
  | swap a b l =>
    simp only [depthEntries_cons]
    omega
  | trans _ _ ih1 ih2 => rw [ih1, ih2]

/-- What mapEncoder.encode does on a non-nil map whose keys are of an accepted
key type: it depends on the entries only through the sorted slice of keys. -/
theorem mapEncoder_encode_eq (me : mapEncoder) (e : encodeState) (kt vt : Ty)
    (es : List (Value × Value)) (hty : ∀ x ∈ es, x.1.TypeOf = .ok kt)
    (hk : kt = .string ∨ (∃ k, kt = .int k) ∨ (∃ k, kt = .uint k)) :
    me.encode e (.map kt vt (some es)) =
      (((sortSlice (fun a b => stringLess a.ks b.ks)
          (es.map fun x => (⟨x.1, x.2, keyText x.1⟩ : mapKey))).foldl
        (fun r k => r.andThen fun e =>
          (me.keyEncoder e k.kv).andThen fun e => me.valEncoder e k.vv)
        (Res.done (e.WriteByte 'd'))).andThen fun e => Res.done (e.WriteByte 'e')) := by
  have hkeys := mapKeys_eq es (fun x hx => mapKeyText_of_type kt x.1 (hty x hx) hk)
  simp only [mapEncoder.encode, Value.IsNil, Value.MapRange, Option.isNone, hkeys]

/-! ## Strings, lists, maps with string keys, records -/

theorem value_ne (a b : List Char) (h : a ≠ b) :
    Returned.value (some a, (none : Option Error)) ≠ Returned.value (some b, none) :=
  fun heq => h (Option.some.inj (Prod.mk.inj (Returned.value.inj heq)).1)

theorem panics_ne_value (p : Panic) (r : Option (List Char) × Option Error) :
    Returned.panics p ≠ Returned.value r :=
  fun heq => Returned.noConfusion heq

/-- C2: Marshal of a string does not return the length-prefixed text: for every
string s the call panics inside stringEncoder, which hands the length to
uintEncoder as a value of kind Int; so it does for "spam" and for "a". -/
theorem Marshal_string_panics :
    (∀ s : List Char, Marshal (.string s) = .panics (.ValueError "reflect.Value.Uint" .Int)) ∧
    Marshal (.string "spam".toList) = .panics (.ValueError "reflect.Value.Uint" .Int) ∧
    Marshal (.string "spam".toList) ≠ .value (some "4:spam".toList, none) ∧
    Marshal (.string "a".toList) ≠ .value (some "1:a".toList, none) :=
  ⟨fun _ => rfl, rfl, panics_ne_value _ _, panics_ne_value _ _⟩

/-- C3: on []int{1, 2} Marshal returns "l,i2ee" and on []int{1, 2, 3} it returns
"l,i2e,i3ee", not "li1ei2ee" and "li1ei2ei3ee": the element at index 0 is left
out and a comma goes before each other element; the same holds for arrays, and
a list of one element comes out as "le". -/
theorem Marshal_int_list_drops_first :
    Marshal (.slice (.int .Int) (some [.int .Int 1, .int .Int 2])) =
      .value (some "l,i2ee".toList, none) ∧
    Marshal (.slice (.int .Int) (some [.int .Int 1, .int .Int 2, .int .Int 3])) =
      .value (some "l,i2e,i3ee".toList, none) ∧
    Marshal (.array (.int .Int) [.int .Int 1, .int .Int 2]) =
      .value (some "l,i2ee".toList, none) ∧
    Marshal (.slice (.int .Int) (some [.int .Int 5])) = .value (some "le".toList, none) ∧
    Marshal (.slice (.int .Int) (some [.int .Int 1, .int .Int 2])) ≠
      .value (some "li1ei2ee".toList, none) ∧
    Marshal (.slice (.int .Int) (some [.int .Int 1, .int .Int 2, .int .Int 3])) ≠
      .value (some "li1ei2ei3ee".toList, none) :=
  ⟨rfl, rfl, rfl, rfl, value_ne "l,i2ee".toList _ (by decide),
    value_ne "l,i2e,i3ee".toList _ (by decide)⟩

/-- C4: on the maps {"cow": "moo", "spam": "eggs"} and {"cat": 1, "dog": 2}
Marshal does not return "d3:cow3:moo4:spam4:eggse" and "d3:cati1e3:dogi2ee": the
call panics when the first key reaches stringEncoder. -/
theorem Marshal_string_keyed_map_panics :
    Marshal (.map .string .string
        (some [(.string "cow".toList, .string "moo".toList),
               (.string "spam".toList, .string "eggs".toList)])) =
      .panics (.ValueError "reflect.Value.Uint" .Int) ∧
    Marshal (.map .string .interface
        (some [(.string "cat".toList, .iface (some (.int .Int 1))),
               (.string "dog".toList, .iface (some (.int .Int 2)))])) =
      .panics (.ValueError "reflect.Value.Uint" .Int) ∧
    Marshal (.map .string .string
        (some [(.string "cow".toList, .string "moo".toList),
               (.string "spam".toList, .string "eggs".toList)])) ≠
      .value (some "d3:cow3:moo4:spam4:eggse".toList, none) ∧
    Marshal (.map .string .interface
        (some [(.string "cat".toList, .iface (some (.int .Int 1))),
               (.string "dog".toList, .iface (some (.int .Int 2)))])) ≠
      .value (some "d3:cati1e3:dogi2ee".toList, none) :=
  ⟨rfl, rfl, panics_ne_value _ _, panics_ne_value _ _⟩

/-- C6: there is no round trip: Marshal(42) returns "i42e", and Unmarshal of
these bytes, as of any bytes into any target, returns the error
"not implemeted". -/
theorem Unmarshal_never_succeeds :
    Marshal (.int .Int 42) = .value (some "i42e".toList, none) ∧
    Unmarshal "i42e".toList (.ptr (.int .Int) (some (.int .Int 0))) =
      some (Error.errorf "not implemeted") ∧
    (∀ (data : List Char) (target : Value), Unmarshal data target ≠ none) :=
  ⟨rfl, rfl, fun _ _ h => Option.noConfusion h⟩

/-- C7: a float inside a list is not always refused. A float given as the
top-level value, or standing at index 1 of a list, makes Marshal return an
error (the bencodeError around an UnsupportedTypeError); but on the one-element lists []float64{1.5} and
[]interface{}{1.5} Marshal returns "le" and no error, the float being dropped. -/
theorem Marshal_float_in_list_dropped :
    (∀ (k : FloatKind) (bits : Nat),
      Marshal (.float k bits) =
        .value (none, some (Error.bencodeError (Error.UnsupportedTypeError (.float k))))) ∧
    Marshal (.slice (.float .Float64)
        (some [.float .Float64 float64_1_5, .float .Float64 float64_1_5])) =
      .value (none, some (Error.bencodeError (Error.UnsupportedTypeError (.float .Float64)))) ∧
    Marshal (.slice (.float .Float64) (some [.float .Float64 float64_1_5])) =
      .value (some "le".toList, none) ∧
    Marshal (.slice .interface (some [.iface (some (.float .Float64 float64_1_5))])) =
      .value (some "le".toList, none) :=
  ⟨fun _ _ => rfl, rfl, rfl, rfl⟩

/-- C8: on the record omitEmpty{42, [], "Jack", "", "Daniel", ""} Marshal
returns "de", not "d3:Agei42e9:FirstName4:Jack8:LastName6:Daniele": the encode
method of the struct encoder writes 'd' and 'e' and nothing for any field, the
field list of getStructFields being empty for every type. -/
theorem Marshal_struct_emits_no_field :
    (∀ (t : Ty) (e : encodeState) (v : Value),
      (structEncoder.mk (getStructFields t)).encode e v =
        Res.done ((e.WriteByte 'd').WriteByte 'e')) ∧
    Marshal oeEmpty = .value (some "de".toList, none) ∧
    Marshal oeEmpty ≠
      .value (some "d3:Agei42e9:FirstName4:Jack8:LastName6:Daniele".toList, none) :=
  ⟨fun _ _ _ => rfl, rfl, value_ne "de".toList _ (by decide)⟩

/-- C9: on the byte slice []byte{'1', '2', '3'} Marshal returns "l,i50e,i51ee",
not the byte-string "3:123": a byte slice goes through the slice encoder like
any other slice, its elements through uintEncoder. -/
theorem Marshal_byte_slice_as_list :
    Marshal (.slice (.uint .Uint8)
        (some [.uint .Uint8 '1'.toNat, .uint .Uint8 '2'.toNat, .uint .Uint8 '3'.toNat])) =
      .value (some "l,i50e,i51ee".toList, none) ∧
    Marshal (.slice (.uint .Uint8)
        (some [.uint .Uint8 '1'.toNat, .uint .Uint8 '2'.toNat, .uint .Uint8 '3'.toNat])) ≠
      .value (some "3:123".toList, none) :=
  ⟨rfl, value_ne "l,i50e,i51ee".toList _ (by decide)⟩


/-! ## The bound of reflectValue -/

theorem andThen_congr (r : Res) (f g : encodeState → Res) (h : ∀ e, f e = g e) :
    r.andThen f = r.andThen g := by
  unfold Res.andThen
  cases r.panic with
  | none => exact h _
  | some _ => rfl

theorem foldl_congr_mem {α β : Type} (l : List α) (f g : β → α → β) (b : β)
    (h : ∀ x ∈ l, ∀ r, f r x = g r x) : l.foldl f b = l.foldl g b := by
  induction l generalizing b with
  | nil => rfl
  | cons x l ih =>
    simp only [List.foldl_cons]
    rw [h x (List.mem_cons_self _ _) b]
    exact ih _ (fun y hy r => h y (List.mem_cons_of_mem _ hy) r)

theorem depth_le_depthList (xs : List Value) (x : Value) (h : x ∈ xs) :
    x.depth ≤ depthList xs := by
  induction xs with
  | nil => cases h
  | cons y ys ih =>
    simp only [depthList]
    rcases List.mem_cons.mp h with rfl | h
    · omega
    · have := ih h
      omega

theorem depth_le_depthEntries (es : List (Value × Value)) (x : Value × Value) (h : x ∈ es) :
    x.1.depth ≤ depthEntries es ∧ x.2.depth ≤ depthEntries es := by
  induction es with
  | nil => cases h
  | cons y ys ih =>
    rw [depthEntries_cons]
    rcases List.mem_cons.mp h with rfl | h
    · omega
    · have := ih h
      omega

theorem Index_depth_le (v x : Value) (i : Nat) (h : v.Index i = .ok x) : x.depth ≤ v.depth := by
  cases v with
  | array el xs =>
    simp only [Value.Index] at h
    split at h
    · rename_i y hy
      cases h
      simp only [Value.depth]
      exact depth_le_depthList xs _ (List.get?_mem hy)
    · cases h
  | slice el xs =>
    cases xs with
    | none => simp [Value.Index] at h
    | some xs =>
      simp only [Value.Index] at h
      split at h
      · rename_i y hy
        cases h
        simp only [Value.depth]
        exact depth_le_depthList xs _ (List.get?_mem hy)
      · cases h
  | _ => simp [Value.Index] at h


theorem MapRange_depth_le (v : Value) (es : List (Value × Value)) (h : v.MapRange = .ok es)
    (x : Value × Value) (hx : x ∈ es) : x.1.depth ≤ v.depth ∧ x.2.depth ≤ v.depth := by
  cases v with
  | map k el entries =>
    cases entries with
    | none =>
      simp only [Value.MapRange, Except.ok.injEq] at h
      subst h
      cases hx
    | some l =>
      simp only [Value.MapRange, Except.ok.injEq] at h
      subst h
      simp only [Value.depth]
      exact depth_le_depthEntries _ x hx
  | _ => simp [Value.MapRange] at h

theorem mapKeys_mem (es : List (Value × Value)) (keys : List mapKey)
    (h : mapKeys es = .ok keys) (k : mapKey) (hk : k ∈ keys) : (k.kv, k.vv) ∈ es := by
  induction es generalizing keys with
  | nil =>
    simp only [mapKeys, Except.ok.injEq] at h
    subst h
    cases hk
  | cons x es ih =>
    obtain ⟨kv, vv⟩ := x
    simp only [mapKeys] at h
    split at h
    · cases h
    · split at h
      · cases h
      · rename_i ks _ rest hrest
        simp only [Except.ok.injEq] at h
        subst h
        rcases List.mem_cons.mp hk with rfl | hk
        · exact List.mem_cons_self _ _
        · exact List.mem_cons_of_mem _ (ih rest hrest hk)

theorem arrayEncoder_congr (enc1 enc2 : encoderFunc) (e : encodeState) (v : Value)
    (h : ∀ (e : encodeState) (x : Value) (i : Nat), v.Index i = .ok x → enc1 e x = enc2 e x) :
    (arrayEncoder.mk enc1).encode e v = (arrayEncoder.mk enc2).encode e v := by
  simp only [arrayEncoder.encode]
  cases v.Len with
  | error p => rfl
  | ok n =>
    simp only
    congr 1
    refine foldl_congr_mem _ _ _ _ (fun i _ r => andThen_congr r _ _ (fun e => ?_))
    by_cases hi : i > 0
    · simp only [hi, if_true]
      cases hidx : v.Index i with
      | error p => rfl
      | ok x => exact h _ x i hidx
    · simp only [hi, if_false]

theorem mapEncoder_congr (val1 val2 key1 key2 : encoderFunc) (e : encodeState) (v : Value)
    (h : ∀ (e : encodeState) (es : List (Value × Value)) (x : Value × Value),
      v.MapRange = .ok es → x ∈ es → key1 e x.1 = key2 e x.1 ∧ val1 e x.2 = val2 e x.2) :
    (mapEncoder.mk val1 key1).encode e v = (mapEncoder.mk val2 key2).encode e v := by
  simp only [mapEncoder.encode]
  cases v.IsNil with
  | error p => rfl
  | ok b =>
    cases b with
    | true => rfl
    | false =>
      simp only
      cases hmr : v.MapRange with
      | error p => rfl
      | ok es =>
        simp only
        cases hkeys : mapKeys es with
        | error p => rfl
        | ok keys =>
          simp only
          congr 1
          refine foldl_congr_mem _ _ _ _ (fun k hk r => andThen_congr r _ _ (fun e => ?_))
          have hmem : (k.kv, k.vv) ∈ es :=
            mapKeys_mem es keys hkeys k ((sortSlice_perm keys).mem_iff.mp hk)
          rw [(h e es _ hmr hmem).1]
          exact andThen_congr _ _ _ (fun e2 => (h e2 es _ hmr hmem).2)

/-- Whether newTypeEncoder returns depends on the type alone. -/
theorem newTypeEncoder_isSome (rv : encoderFunc) :
    ∀ t : Ty, (newTypeEncoder rv t).isSome = typeEncoderReturns t
  | .bool => rfl
  | .int _ => rfl
  | .uint _ => rfl
  | .float _ => rfl
  | .complex64 => rfl
  | .complex128 => rfl
  | .string => rfl
  | .interface => rfl
  | .func => rfl
  | .unsafePointer => rfl
  | .chan _ => rfl
  | .struct _ _ => rfl
  | .named _ _ => rfl
  | .array _ el => by
    simp only [newTypeEncoder, typeEncoderReturns, Option.isSome_map']
    exact newTypeEncoder_isSome rv el
  | .slice el => by
    simp only [newTypeEncoder, typeEncoderReturns, Option.isSome_map']
    exact newTypeEncoder_isSome rv el
  | .ptr el => by
    simp only [newTypeEncoder, typeEncoderReturns, Option.isSome_map']
    exact newTypeEncoder_isSome rv el
  | .map k el => by
    have hel := newTypeEncoder_isSome rv el
    cases k <;> first
      | rfl
      | (simp only [newTypeEncoder, newMapEncoder, typeEncoderReturns]
         rw [← hel]
         cases newTypeEncoder rv el <;> rfl)

/-- Two callbacks that agree on the values nested below depth d give the same
encoder on the values of depth at most d, when newTypeEncoder returns at all. -/
theorem newTypeEncoder_congr (rv1 rv2 : encoderFunc) (d : Nat)
    (h : ∀ (e : encodeState) (x : Value), x.depth < d → rv1 e x = rv2 e x) :
    ∀ (t : Ty),
      (newTypeEncoder rv1 t = none ∧ newTypeEncoder rv2 t = none) ∨
      ∃ f g, newTypeEncoder rv1 t = some f ∧ newTypeEncoder rv2 t = some g ∧
        ∀ (e : encodeState) (v : Value), v.depth ≤ d → f e v = g e v
  | .bool => Or.inr ⟨_, _, rfl, rfl, fun _ _ _ => rfl⟩
  | .int _ => Or.inr ⟨_, _, rfl, rfl, fun _ _ _ => rfl⟩
  | .uint _ => Or.inr ⟨_, _, rfl, rfl, fun _ _ _ => rfl⟩
  | .float _ => Or.inr ⟨_, _, rfl, rfl, fun _ _ _ => rfl⟩
  | .complex64 => Or.inr ⟨_, _, rfl, rfl, fun _ _ _ => rfl⟩
  | .complex128 => Or.inr ⟨_, _, rfl, rfl, fun _ _ _ => rfl⟩
  | .string => Or.inr ⟨_, _, rfl, rfl, fun _ _ _ => rfl⟩
  | .func => Or.inr ⟨_, _, rfl, rfl, fun _ _ _ => rfl⟩
  | .unsafePointer => Or.inr ⟨_, _, rfl, rfl, fun _ _ _ => rfl⟩
  | .chan _ => Or.inr ⟨_, _, rfl, rfl, fun _ _ _ => rfl⟩
  | .struct _ _ => Or.inr ⟨_, _, rfl, rfl, fun _ _ _ => rfl⟩
  | .named _ _ => Or.inl ⟨rfl, rfl⟩
  | .interface => Or.inr ⟨_, _, rfl, rfl, fun e v hv => by
    cases v with
    | iface x =>
      cases x with
      | none => rfl
      | some x =>
        have hx : x.depth < d := by
          simp only [Value.depth] at hv
          omega
        exact h e x hx
    | ptr el x =>
      cases x with
      | none => rfl
      | some x =>
        have hx : x.depth < d := by
          simp only [Value.depth] at hv
          omega
        exact h e x hx
    | slice el xs => cases xs <;> rfl
    | map k el es => cases es <;> rfl
    | chan el b => cases b <;> rfl
    | func b => cases b <;> rfl
    | unsafePointer b => cases b <;> rfl
    | _ => rfl⟩
  | .ptr el => by
    rcases newTypeEncoder_congr rv1 rv2 d h el with ⟨h1, h2⟩ | ⟨f, g, h1, h2, _⟩
    · exact Or.inl ⟨by simp only [newTypeEncoder, h1, Option.map_none'],
        by simp only [newTypeEncoder, h2, Option.map_none']⟩
    · exact Or.inr ⟨newPtrEncoder f, newPtrEncoder g,
        by simp only [newTypeEncoder, h1, Option.map_some'],
        by simp only [newTypeEncoder, h2, Option.map_some'], fun _ _ _ => rfl⟩
  | .array _ el => by
    rcases newTypeEncoder_congr rv1 rv2 d h el with ⟨h1, h2⟩ | ⟨f, g, h1, h2, hfg⟩
    · exact Or.inl ⟨by simp only [newTypeEncoder, h1, Option.map_none'],
        by simp only [newTypeEncoder, h2, Option.map_none']⟩
    · exact Or.inr ⟨newArrayEncoder f, newArrayEncoder g,
        by simp only [newTypeEncoder, h1, Option.map_some'],
        by simp only [newTypeEncoder, h2, Option.map_some'],
        fun e v hv => arrayEncoder_congr _ _ e v (fun e2 x i hi =>
          hfg e2 x (le_trans (Index_depth_le v x i hi) hv))⟩
  | .slice el => by
    rcases newTypeEncoder_congr rv1 rv2 d h el with ⟨h1, h2⟩ | ⟨f, g, h1, h2, hfg⟩
    · exact Or.inl ⟨by simp only [newTypeEncoder, h1, Option.map_none'],
        by simp only [newTypeEncoder, h2, Option.map_none']⟩
    · refine Or.inr ⟨newSliceEncoder f, newSliceEncoder g,
        by simp only [newTypeEncoder, h1, Option.map_some'],
        by simp only [newTypeEncoder, h2, Option.map_some'], fun e v hv => ?_⟩
      show (sliceEncoder.mk (newArrayEncoder f)).encode e v =
        (sliceEncoder.mk (newArrayEncoder g)).encode e v
      simp only [sliceEncoder.encode]
      cases v.IsNil with
      | error p => rfl
      | ok b =>
        cases b with
        | true => rfl
        | false =>
          exact arrayEncoder_congr _ _ e v (fun e2 x i hi =>
            hfg e2 x (le_trans (Index_depth_le v x i hi) hv))
  | .map k el => by
    have hsup : ∀ k2 : Ty, (k2 = .string ∨ (∃ j, k2 = .int j) ∨ (∃ j, k2 = .uint j)) →
        (newTypeEncoder rv1 (.map k2 el) = none ∧ newTypeEncoder rv2 (.map k2 el) = none) ∨
        ∃ f g, newTypeEncoder rv1 (.map k2 el) = some f ∧
          newTypeEncoder rv2 (.map k2 el) = some g ∧
          ∀ (e : encodeState) (v : Value), v.depth ≤ d → f e v = g e v := by
      intro k2 hk2
      have hkey : ∃ kf, newTypeEncoder rv1 k2 = some kf ∧ newTypeEncoder rv2 k2 = some kf := by
        rcases hk2 with rfl | ⟨j, rfl⟩ | ⟨j, rfl⟩ <;> exact ⟨_, rfl, rfl⟩
      obtain ⟨kf, hk1, hk2b⟩ := hkey
      have hnm : ∀ rv : encoderFunc, newTypeEncoder rv (.map k2 el) =
          match newTypeEncoder rv el, newTypeEncoder rv k2 with
          | some vf, some kf => some (mapEncoder.mk vf kf).encode
          | _, _ => none := by
        intro rv
        rcases hk2 with rfl | ⟨j, rfl⟩ | ⟨j, rfl⟩ <;> rfl
      rcases newTypeEncoder_congr rv1 rv2 d h el with ⟨h1, h2⟩ | ⟨f, g, h1, h2, hfg⟩
      · exact Or.inl ⟨by rw [hnm, h1], by rw [hnm, h2]⟩
      · refine Or.inr ⟨(mapEncoder.mk f kf).encode, (mapEncoder.mk g kf).encode,
          by rw [hnm, h1, hk1], by rw [hnm, h2, hk2b], fun e v hv => ?_⟩
        exact mapEncoder_congr _ _ _ _ e v (fun e2 es x hmr hx =>
          ⟨rfl, hfg e2 x.2 (le_trans (MapRange_depth_le v es hmr x hx).2 hv)⟩)
    cases k with
    | string => exact hsup _ (Or.inl rfl)
    | int j => exact hsup _ (Or.inr (Or.inl ⟨j, rfl⟩))
    | uint j => exact hsup _ (Or.inr (Or.inr ⟨j, rfl⟩))
    | _ => exact Or.inr ⟨_, _, rfl, rfl, fun _ _ _ => rfl⟩

/-- The bound handed to reflectValue does not matter once it exceeds the depth
of the value: the call never runs out of it. -/
theorem reflectValue_fuel (n : Nat) : ∀ (m : Nat) (e : encodeState) (v : Value),
    v.depth < n → v.depth < m → reflectValue n e v = reflectValue m e v := by
  induction n with
  | zero => intro m e v h; omega
  | succ n ih =>
    intro m e v hn hm
    cases m with
    | zero => omega
    | succ m =>
      simp only [reflectValue, valueEncoder]
      cases hvalid : v.IsValid with
      | false => rfl
      | true =>
        simp only [Bool.not_true, Bool.false_eq_true, if_false]
        cases v.TypeOf with
        | error p => rfl
        | ok t =>
          simp only [typeEncoder]
          rcases newTypeEncoder_congr (reflectValue n) (reflectValue m) v.depth
            (fun e2 x hx => ih m e2 x (by omega) (by omega)) t with
            ⟨h1, h2⟩ | ⟨f, g, h1, h2, hfg⟩
          · rw [h1, h2]
          · rw [h1, h2]
            exact hfg e v (le_refl _)

/-! ## Key order of maps -/

theorem sorted_strict (l : List mapKey) (hn : (l.map mapKey.ks).Nodup)
    (hs : l.Sorted (fun a b => stringLess b.ks a.ks = false)) :
    l.Pairwise (fun a b => stringLess a.ks b.ks = true) := by
  have hne : l.Pairwise (fun a b => a.ks ≠ b.ks) := (List.pairwise_map).mp hn
  refine (List.Pairwise.and hs hne).imp ?_
  rintro a b ⟨hab, hk⟩
  by_contra hlt
  exact hk (stringLess_connected _ _ (by simpa using hlt) hab)

theorem keyTexts_nodup (kt : Ty) (es : List (Value × Value))
    (hk : kt = .string ∨ (∃ k, kt = .int k) ∨ (∃ k, kt = .uint k))
    (hnd : (es.map Prod.fst).Nodup) (hty : ∀ x ∈ es, x.1.TypeOf = .ok kt) :
    ((es.map fun x => (⟨x.1, x.2, keyText x.1⟩ : mapKey)).map mapKey.ks).Nodup := by
  rw [List.map_map]
  have h : (es.map (keyText ∘ Prod.fst)).Nodup := by
    rw [← List.map_map]
    refine List.Nodup.map_on ?_ hnd
    intro a ha b hb hab
    obtain ⟨x, hx, rfl⟩ := List.mem_map.mp ha
    obtain ⟨y, hy, rfl⟩ := List.mem_map.mp hb
    exact keyText_injective kt _ _ (hty x hx) (hty y hy) hk hab
  exact h

/-- C11: on a non-nil map whose keys are strings, signed integers or unsigned
integers (pairwise distinct, of the map's key type), mapEncoder.encode emits the
entries by ranging over the sorted slice of keys, and along that slice the
key-texts are strictly ascending in bytewise lexicographic order; in particular
no two emitted entries have the same key-text. -/
theorem mapEncoder_emits_keys_ascending (me : mapEncoder) (e : encodeState) (kt vt : Ty)
    (es : List (Value × Value))
    (hk : kt = .string ∨ (∃ k, kt = .int k) ∨ (∃ k, kt = .uint k))
    (hnd : (es.map Prod.fst).Nodup) (hty : ∀ x ∈ es, x.1.TypeOf = .ok kt) :
    me.encode e (.map kt vt (some es)) =
      (((sortSlice (fun a b => stringLess a.ks b.ks)
          (es.map fun x => (⟨x.1, x.2, keyText x.1⟩ : mapKey))).foldl
        (fun r k => r.andThen fun e =>
          (me.keyEncoder e k.kv).andThen fun e => me.valEncoder e k.vv)
        (Res.done (e.WriteByte 'd'))).andThen fun e => Res.done (e.WriteByte 'e')) ∧
    (sortSlice (fun a b => stringLess a.ks b.ks)
        (es.map fun x => (⟨x.1, x.2, keyText x.1⟩ : mapKey))).Perm
      (es.map fun x => (⟨x.1, x.2, keyText x.1⟩ : mapKey)) ∧
    ((sortSlice (fun a b => stringLess a.ks b.ks)
        (es.map fun x => (⟨x.1, x.2, keyText x.1⟩ : mapKey))).map mapKey.ks).Pairwise
      (fun a b => stringLess a b = true) ∧
    ((sortSlice (fun a b => stringLess a.ks b.ks)
        (es.map fun x => (⟨x.1, x.2, keyText x.1⟩ : mapKey))).map mapKey.ks).Nodup := by
  have hnodup := keyTexts_nodup kt es hk hnd hty
  have hnodup2 : ((sortSlice (fun a b => stringLess a.ks b.ks)
      (es.map fun x => (⟨x.1, x.2, keyText x.1⟩ : mapKey))).map mapKey.ks).Nodup :=
    (((sortSlice_perm _).map mapKey.ks).nodup_iff).mpr hnodup
  refine ⟨mapEncoder_encode_eq me e kt vt es hty hk, sortSlice_perm _, ?_, hnodup2⟩
  exact List.pairwise_map.mpr (sorted_strict _ hnodup2 (sortSlice_sorted _))

/-- The key order of C11 at the map {10: 3, 9: 2} presented as (9, 10): the
sorted slice carries the key-texts "10", "9" in this order, which is strictly
ascending, and Marshal emits the entry of key 10 first. -/
theorem mapEncoder_emits_keys_ascending_witness :
    ((sortSlice (fun a b => stringLess a.ks b.ks)
        ([(Value.int .Int 9, Value.int .Int 2), (Value.int .Int 10, Value.int .Int 3)].map
          fun x => (⟨x.1, x.2, keyText x.1⟩ : mapKey))).map mapKey.ks).Pairwise
      (fun a b => stringLess a b = true) ∧
    (sortSlice (fun a b => stringLess a.ks b.ks)
        ([(Value.int .Int 9, Value.int .Int 2), (Value.int .Int 10, Value.int .Int 3)].map
          fun x => (⟨x.1, x.2, keyText x.1⟩ : mapKey))).map mapKey.ks =
      ["10".toList, "9".toList] ∧
    Marshal (.map (.int .Int) (.int .Int)
        (some [(.int .Int 9, .int .Int 2), (.int .Int 10, .int .Int 3)])) =
      .value (some "di10ei3ei9ei2ee".toList, none) :=
  ⟨(mapEncoder_emits_keys_ascending (mapEncoder.mk intEncoder intEncoder) newEncodeState
      (.int .Int) (.int .Int)
      [(Value.int .Int 9, Value.int .Int 2), (Value.int .Int 10, Value.int .Int 3)]
      (Or.inr (Or.inl ⟨_, rfl⟩)) (by simp)
      (by intro x hx; simp at hx; rcases hx with rfl | rfl <;> rfl)).2.2.1,
   rfl, rfl⟩

/-- C12: on the map {1: 2} with integer keys Marshal returns "di1ei2ee", not
"d1:1i2ee": the decimal text of the key is used for sorting only, and the key is
emitted by the encoder of its type, intEncoder (uintEncoder for an unsigned
key), as an integer token. -/
theorem Marshal_int_key_as_integer_token :
    Marshal (.map (.int .Int) (.int .Int) (some [(.int .Int 1, .int .Int 2)])) =
      .value (some "di1ei2ee".toList, none) ∧
    Marshal (.map (.uint .Uint) (.int .Int) (some [(.uint .Uint 1, .int .Int 2)])) =
      .value (some "di1ei2ee".toList, none) ∧
    Marshal (.map (.int .Int) (.int .Int) (some [(.int .Int 1, .int .Int 2)])) ≠
      .value (some "d1:1i2ee".toList, none) :=
  ⟨rfl, rfl, value_ne "di1ei2ee".toList _ (by decide)⟩

/-! ## Types that contain themselves -/

theorem newTypeEncoder_some (rv : encoderFunc) (t : Ty) (h : typeEncoderReturns t = true) :
    ∃ f, newTypeEncoder rv t = some f := by
  have hs := newTypeEncoder_isSome rv t
  rw [h] at hs
  exact Option.isSome_iff_exists.mp hs

theorem newTypeEncoder_none (rv : encoderFunc) (t : Ty) (h : typeEncoderReturns t = false) :
    newTypeEncoder rv t = none := by
  have hs := newTypeEncoder_isSome rv t
  rw [h] at hs
  cases hn : newTypeEncoder rv t with
  | none => rfl
  | some f => rw [hn] at hs; cases hs

/-- A call of reflectValue on a value whose type has no encoder, typeEncoder
never returning, ends in a stack overflow with the buffer untouched. -/
theorem reflectValue_overflow (n : Nat) (e : encodeState) (v : Value) (t : Ty)
    (hv : v.IsValid = true) (ht : v.TypeOf = .ok t) (h : typeEncoderReturns t = false) :
    reflectValue (n + 1) e v = Res.panicked e Panic.stackOverflow := by
  simp only [reflectValue, valueEncoder, hv, ht, typeEncoder,
    newTypeEncoder_none (reflectValue n) t h, Bool.not_true, Bool.false_eq_true, if_false]

/-- A call of reflectValue on a value whose type has an encoder runs that
encoder. -/
theorem reflectValue_some (n : Nat) (e : encodeState) (v : Value) (t : Ty) (f : encoderFunc)
    (hv : v.IsValid = true) (ht : v.TypeOf = .ok t)
    (h : newTypeEncoder (reflectValue n) t = some f) :
    reflectValue (n + 1) e v = f e v := by
  simp only [reflectValue, valueEncoder, hv, ht, typeEncoder, h,
    Bool.not_true, Bool.false_eq_true, if_false]

theorem Marshal_overflow (v : Value) (t : Ty) (hv : v.IsValid = true) (ht : v.TypeOf = .ok t)
    (h : typeEncoderReturns t = false) : Marshal v = .panics Panic.stackOverflow := by
  simp only [Marshal, encodeState.marshal, reflectValue_overflow v.depth newEncodeState v t hv ht h,
    Res.panicked]

/-! ## Pointers, nil values, booleans -/

/-- C13: Marshal of a non-nil pointer does not return the bytes of the value
pointed to: for every pointer to any value it returns no bytes and no error
when the encoder of the element type can be built, and it ends in a stack
overflow when it cannot; so for a pointer to 42 it returns (nil, nil) where
Marshal(42) is "i42e". -/
theorem Marshal_pointer_emits_nothing :
    (∀ (el : Ty) (x : Value), typeEncoderReturns el = true →
      Marshal (.ptr el (some x)) = .value (none, none)) ∧
    (∀ (el : Ty) (x : Value), typeEncoderReturns el = false →
      Marshal (.ptr el (some x)) = .panics Panic.stackOverflow) ∧
    Marshal (.ptr (.int .Int) (some (.int .Int 42))) = .value (none, none) ∧
    Marshal (.int .Int 42) = .value (some "i42e".toList, none) ∧
    Marshal (.ptr (.int .Int) (some (.int .Int 42))) ≠ Marshal (.int .Int 42) := by
  refine ⟨fun el x hel => ?_,
    fun el x hel => Marshal_overflow (.ptr el (some x)) (.ptr el) rfl rfl hel, rfl, rfl, ?_⟩
  · obtain ⟨f, hf⟩ := newTypeEncoder_some (reflectValue (Value.ptr el (some x)).depth) el hel
    have hr := reflectValue_some (Value.ptr el (some x)).depth newEncodeState
      (.ptr el (some x)) (.ptr el) (newPtrEncoder f) rfl rfl
      (by simp only [newTypeEncoder, hf, Option.map_some'])
    simp only [Marshal, encodeState.marshal, hr]
    rfl
  · intro h
    have h2 : Returned.value ((none : Option (List Char)), (none : Option Error)) =
        Returned.value (some "i42e".toList, none) := h
    cases h2

/-- C14: a nil pointer is not refused with an error whatever its element type.
For the pointer type P declared as type P *P, and for every pointer type whose
element type contains itself through pointer, slice, array or map element
types, Marshal of the nil pointer does not return: building the encoder never
ends and the program stops with a stack overflow. For every other element type
Marshal returns nil bytes and the error made in ptrEncoder.encode (inside the
bencodeError wrapper). -/
theorem Marshal_nil_pointer_of_recursive_type :
    Marshal (.ptr (.named "P" .Ptr) none) = .panics Panic.stackOverflow ∧
    Marshal (.ptr (.slice (.named "T" .Slice)) none) = .panics Panic.stackOverflow ∧
    Marshal (.ptr (.map .string (.named "T" .Map)) none) = .panics Panic.stackOverflow ∧
    (∀ (r : Option (List Char) × Option Error),
      Marshal (.ptr (.named "P" .Ptr) none) ≠ .value r) ∧
    (∀ el : Ty, typeEncoderReturns el = false →
      Marshal (.ptr el none) = .panics Panic.stackOverflow) ∧
    (∀ el : Ty, typeEncoderReturns el = true →
      Marshal (.ptr el none) =
        .value (none,
          some (Error.bencodeError (Error.errorf "json: could not encode nil value")))) := by
  refine ⟨rfl, rfl, rfl, fun r => panics_ne_value _ r, fun el hel => ?_, fun el hel => ?_⟩
  · exact Marshal_overflow (.ptr el none) (.ptr el) rfl rfl hel
  · obtain ⟨f, hf⟩ := newTypeEncoder_some (reflectValue (Value.ptr el none).depth) el hel
    have hr := reflectValue_some (Value.ptr el none).depth newEncodeState
      (.ptr el none) (.ptr el) (newPtrEncoder f) rfl rfl
      (by simp only [newTypeEncoder, hf, Option.map_some'])
    simp only [Marshal, encodeState.marshal, hr]
    rfl

/-- C15: an absent value that is not a pointer is not refused. On the untyped
nil Marshal returns no bytes and no error; a nil interface element of a list or
of a map is passed over without a byte and without an error, so
[]interface{}{1, nil} comes out as "l,e" and map[int]interface{}{1: nil} as
"di1ee". -/
theorem Marshal_nil_emits_nothing :
    Marshal .invalid = .value (none, none) ∧
    (∀ (rv : encoderFunc) (e : encodeState), interfaceEncoder rv e (.iface none) = Res.done e) ∧
    Marshal (.slice .interface (some [.iface (some (.int .Int 1)), .iface none])) =
      .value (some "l,e".toList, none) ∧
    Marshal (.map (.int .Int) .interface (some [(.int .Int 1, .iface none)])) =
      .value (some "di1ee".toList, none) :=
  ⟨rfl, fun _ _ => rfl, rfl, rfl⟩

/-- C16: for every boolean, Marshal returns no error and the integer encoding of
1 for true and of 0 for false: Marshal(true) = "i1e", Marshal(false) = "i0e". -/
theorem Marshal_bool :
    (∀ b : Bool,
      Marshal (.bool b) = .value (some (if b then "i1e".toList else "i0e".toList), none)) ∧
    Marshal (.bool true) = .value (some "i1e".toList, none) ∧
    Marshal (.bool false) = .value (some "i0e".toList, none) :=
  ⟨fun b => by cases b <;> rfl, rfl, rfl⟩

/-- C17: Unmarshal does not decode the canonical integer tokens: on "i0e" it
returns the error "not implemeted" instead of yielding 0, and so it does on
the token of every integer; on "i-0e" and "i01e" it returns that same error. -/
theorem Unmarshal_integer_token_fails :
    Unmarshal "i0e".toList (.ptr (.int .Int) (some (.int .Int 0))) =
      some (Error.errorf "not implemeted") ∧
    (∀ (n : Int) (target : Value),
      Unmarshal ('i' :: (FormatInt n ++ ['e'])) target = some (Error.errorf "not implemeted")) ∧
    Unmarshal "i-0e".toList (.ptr (.int .Int) (some (.int .Int 0))) =
      some (Error.errorf "not implemeted") ∧
    Unmarshal "i01e".toList (.ptr (.int .Int) (some (.int .Int 0))) =
      some (Error.errorf "not implemeted") :=
  ⟨rfl, fun _ _ => rfl, rfl, rfl⟩

/-! ## Unsupported keys, empty lists and maps, failure -/

/-- C18, as stated, fails: on the nil map of type map[bool]int Marshal returns
the bencodeError that wraps an UnsupportedTypeError, and that error is not the
UnsupportedTypeError for the map type. -/
theorem Marshal_map_unsupported_key_not_bare :
    Marshal (.map .bool (.int .Int) none) =
      .value (none,
        some (Error.bencodeError (Error.UnsupportedTypeError (.map .bool (.int .Int))))) ∧
    Marshal (.map .bool (.int .Int) none) ≠
      .value (none, some (Error.UnsupportedTypeError (.map .bool (.int .Int)))) := by
  refine ⟨rfl, ?_⟩
  intro h
  have h2 : Returned.value ((none : Option (List Char)),
      some (Error.bencodeError (Error.UnsupportedTypeError (.map .bool (.int .Int))))) =
      Returned.value (none, some (Error.UnsupportedTypeError (.map .bool (.int .Int)))) := h
  have h3 := Option.some.inj (Prod.mk.inj (Returned.value.inj h2)).2
  cases h3

/-- C18, amended: for every map whose key type is neither string nor a signed or
unsigned integer type, whatever its entries (nil, empty or not) and whatever
its element type, Marshal returns nil bytes and a non-nil error: the
bencodeError that wraps the UnsupportedTypeError carrying the map type. -/
theorem Marshal_map_unsupported_key (kt vt : Ty) (entries : Option (List (Value × Value)))
    (hk : ¬ (kt = .string ∨ (∃ k, kt = .int k) ∨ (∃ k, kt = .uint k))) :
    Marshal (.map kt vt entries) =
      .value (none, some (Error.bencodeError (Error.UnsupportedTypeError (.map kt vt)))) := by
  cases kt <;> first | rfl | (exfalso; exact hk (by simp))

/-- The refusal of C18 at maps with bool keys (nil, empty, one entry), at a map
with float64 keys, and at the nil map of type M declared as map[bool]M. -/
theorem Marshal_map_unsupported_key_witness :
    Marshal (.map .bool (.int .Int) none) =
      .value (none,
        some (Error.bencodeError (Error.UnsupportedTypeError (.map .bool (.int .Int))))) ∧
    Marshal (.map .bool (.int .Int) (some [])) =
      .value (none,
        some (Error.bencodeError (Error.UnsupportedTypeError (.map .bool (.int .Int))))) ∧
    Marshal (.map .bool (.int .Int) (some [(.bool true, .int .Int 1)])) =
      .value (none,
        some (Error.bencodeError (Error.UnsupportedTypeError (.map .bool (.int .Int))))) ∧
    Marshal (.map (.float .Float64) (.int .Int)
        (some [(.float .Float64 float64_1_5, .int .Int 1)])) =
      .value (none, some (Error.bencodeError
        (Error.UnsupportedTypeError (.map (.float .Float64) (.int .Int))))) ∧
    Marshal (.map .bool (.named "M" .Map) none) =
      .value (none, some (Error.bencodeError
        (Error.UnsupportedTypeError (.map .bool (.named "M" .Map))))) :=
  ⟨Marshal_map_unsupported_key .bool (.int .Int) none (by simp),
   Marshal_map_unsupported_key .bool (.int .Int) (some []) (by simp),
   Marshal_map_unsupported_key .bool (.int .Int) _ (by simp),
   Marshal_map_unsupported_key (.float .Float64) (.int .Int) _ (by simp),
   Marshal_map_unsupported_key .bool (.named "M" .Map) none (by simp)⟩

theorem Marshal_slice_nil_or_empty (el : Ty) (xs : Option (List Value))
    (hxs : xs = none ∨ xs = some []) (hel : typeEncoderReturns el = true) :
    Marshal (.slice el xs) = .value (some "le".toList, none) := by
  obtain ⟨f, hf⟩ := newTypeEncoder_some (reflectValue (Value.slice el xs).depth) el hel
  have hr := reflectValue_some (Value.slice el xs).depth newEncodeState
    (.slice el xs) (.slice el) (newSliceEncoder f) rfl rfl
    (by simp only [newTypeEncoder, hf, Option.map_some'])
  simp only [Marshal, encodeState.marshal, hr]
  rcases hxs with rfl | rfl <;> rfl

theorem Marshal_map_nil_or_empty (kt vt : Ty) (es : Option (List (Value × Value)))
    (hes : es = none ∨ es = some [])
    (hk : kt = .string ∨ (∃ k, kt = .int k) ∨ (∃ k, kt = .uint k))
    (hvt : typeEncoderReturns vt = true) :
    Marshal (.map kt vt es) = .value (some "de".toList, none) := by
  obtain ⟨f, hf⟩ := newTypeEncoder_some (reflectValue (Value.map kt vt es).depth) vt hvt
  have hkey : ∃ kf, newMapEncoder kt (some f)
      (newTypeEncoder (reflectValue (Value.map kt vt es).depth) kt) =
        some (mapEncoder.mk f kf).encode := by
    rcases hk with rfl | ⟨k, rfl⟩ | ⟨k, rfl⟩ <;> exact ⟨_, rfl⟩
  obtain ⟨kf, hkf⟩ := hkey
  have hr := reflectValue_some (Value.map kt vt es).depth newEncodeState
    (.map kt vt es) (.map kt vt) (mapEncoder.mk f kf).encode rfl rfl
    (by simp only [newTypeEncoder, hf, hkf])
  simp only [Marshal, encodeState.marshal, hr]
  rcases hes with rfl | rfl <;> rfl

/-- C19: the nil and the empty slice, the nil and the empty map are not encoded
as "le" and "de" for every type. For the slice type S declared as type S []S
and the map type M declared as type M map[string]M, Marshal of the nil value
does not return: building the encoder never ends and the program stops with a
stack overflow. For every slice type whose element type has an encoder, Marshal
of the nil and of the empty slice returns "le" and no error, and for every map
type with string or integer keys whose element type has an encoder, Marshal of
the nil and of the empty map returns "de" and no error. -/
theorem Marshal_nil_slice_of_recursive_type :
    Marshal (.slice (.named "S" .Slice) none) = .panics Panic.stackOverflow ∧
    Marshal (.slice (.named "S" .Slice) (some [])) = .panics Panic.stackOverflow ∧
    Marshal (.map .string (.named "M" .Map) none) = .panics Panic.stackOverflow ∧
    Marshal (.map .string (.named "M" .Map) (some [])) = .panics Panic.stackOverflow ∧
    Marshal (.slice (.named "S" .Slice) none) ≠ .value (some "le".toList, none) ∧
    Marshal (.map .string (.named "M" .Map) none) ≠ .value (some "de".toList, none) ∧
    (∀ el : Ty, typeEncoderReturns el = true →
      Marshal (.slice el none) = .value (some "le".toList, none) ∧
      Marshal (.slice el (some [])) = .value (some "le".toList, none)) ∧
    (∀ kt vt : Ty, (kt = .string ∨ (∃ k, kt = .int k) ∨ (∃ k, kt = .uint k)) →
      typeEncoderReturns vt = true →
      Marshal (.map kt vt none) = .value (some "de".toList, none) ∧
      Marshal (.map kt vt (some [])) = .value (some "de".toList, none)) :=
  ⟨rfl, rfl, rfl, rfl, panics_ne_value _ _, panics_ne_value _ _,
   fun el hel => ⟨Marshal_slice_nil_or_empty el none (Or.inl rfl) hel,
     Marshal_slice_nil_or_empty el (some []) (Or.inr rfl) hel⟩,
   fun kt vt hk hvt => ⟨Marshal_map_nil_or_empty kt vt none (Or.inl rfl) hk hvt,
     Marshal_map_nil_or_empty kt vt (some []) (Or.inr rfl) hk hvt⟩⟩

/-- C20: Marshal never returns bytes together with an error: when the returned
error is not nil the returned bytes are nil. So it is on []interface{}{1, 2, 1.5}:
when the float stops the encoding the buffer holds "l,i2e,", and Marshal returns
the error (the bencodeError around the UnsupportedTypeError) with nil bytes. -/
theorem Marshal_error_without_bytes :
    (∀ (v : Value) (b : List Char) (err : Error), Marshal v ≠ .value (some b, some err)) ∧
    (newEncodeState.marshal (.slice .interface
        (some [.iface (some (.int .Int 1)), .iface (some (.int .Int 2)),
               .iface (some (.float .Float64 float64_1_5))]))).1.Bytes = "l,i2e,".toList ∧
    Marshal (.slice .interface
        (some [.iface (some (.int .Int 1)), .iface (some (.int .Int 2)),
               .iface (some (.float .Float64 float64_1_5))])) =
      .value (none, some (Error.bencodeError (Error.UnsupportedTypeError (.float .Float64)))) := by
  refine ⟨?_, rfl, rfl⟩
  intro v b err h
  simp only [Marshal] at h
  split at h
  · cases h
  · cases h
  · split at h <;> cases h

/-! ## Maps presented in another order -/

theorem reordered_refl (n : Nat) (v : Value) : reordered n v v := by
  cases n with
  | zero => exact rfl
  | succ n => exact Or.inl rfl

theorem depthList_forall2 (xs ys : List Value)
    (h : List.Forall₂ (fun a b => a.depth = b.depth) xs ys) : depthList xs = depthList ys := by
  induction h with
  | nil => rfl
  | cons hab _ ih => simp only [depthList, hab, ih]

theorem depthEntries_forall2 (es fs : List (Value × Value))
    (h : List.Forall₂ (fun a b => a.1 = b.1 ∧ a.2.depth = b.2.depth) es fs) :
    depthEntries es = depthEntries fs := by
  induction h with
  | nil => rfl
  | cons hab _ ih => rw [depthEntries_cons, depthEntries_cons, hab.1, hab.2, ih]

/-- What the encoders read off a value without going into it is the same for
two values related by `reordered`. -/
theorem reordered_obs (n : Nat) : ∀ v w : Value, reordered n v w →
    v.IsValid = w.IsValid ∧ v.TypeOf = w.TypeOf ∧ v.toBool = w.toBool ∧ v.toInt = w.toInt ∧
    v.toUint = w.toUint ∧ v.toStr = w.toStr ∧ v.IsNil = w.IsNil ∧ v.Len = w.Len ∧
    v.depth = w.depth := by
  induction n with
  | zero =>
    intro v w h
    have h2 : v = w := h
    subst h2
    exact ⟨rfl, rfl, rfl, rfl, rfl, rfl, rfl, rfl, rfl⟩
  | succ n ih =>
    intro v w h
    rcases h with rfl | ⟨x, y, rfl, rfl, hxy⟩ | ⟨el, xs, ys, rfl, rfl, hl⟩ |
      ⟨el, xs, ys, rfl, rfl, hl⟩ | ⟨kt, vt, es, es2, fs, rfl, rfl, hp, hf, _, _⟩
    · exact ⟨rfl, rfl, rfl, rfl, rfl, rfl, rfl, rfl, rfl⟩
    · refine ⟨rfl, rfl, rfl, rfl, rfl, rfl, rfl, rfl, ?_⟩
      simp only [Value.depth, (ih x y hxy).2.2.2.2.2.2.2.2]
    · have hlen : xs.length = ys.length := hl.length_eq
      have hd : depthList xs = depthList ys :=
        depthList_forall2 xs ys (hl.imp fun a b hab => (ih a b hab).2.2.2.2.2.2.2.2)
      refine ⟨rfl, ?_, rfl, rfl, rfl, rfl, rfl, ?_, ?_⟩
      · simp only [Value.TypeOf, hlen]
      · simp only [Value.Len, hlen]
      · simp only [Value.depth, hd]
    · have hlen : xs.length = ys.length := hl.length_eq
      have hd : depthList xs = depthList ys :=
        depthList_forall2 xs ys (hl.imp fun a b hab => (ih a b hab).2.2.2.2.2.2.2.2)
      refine ⟨rfl, rfl, rfl, rfl, rfl, rfl, rfl, ?_, ?_⟩
      · simp only [Value.Len, hlen]
      · simp only [Value.depth, hd]
    · have hlen : es.length = fs.length := hp.length_eq.trans hf.length_eq
      have hd : depthEntries es = depthEntries fs :=
        (depthEntries_perm es es2 hp).trans
          (depthEntries_forall2 es2 fs
            (hf.imp fun a b hab => ⟨hab.1, (ih a.2 b.2 hab.2).2.2.2.2.2.2.2.2⟩))
      refine ⟨rfl, rfl, rfl, rfl, rfl, rfl, rfl, ?_, ?_⟩
      · simp only [Value.Len, hlen]
      · simp only [Value.depth, hd]

theorem forall2_get? {α : Type} (R : α → α → Prop) (xs ys : List α)
    (h : List.Forall₂ R xs ys) (i : Nat) :
    (xs.get? i = none ∧ ys.get? i = none) ∨
    ∃ x y, xs.get? i = some x ∧ ys.get? i = some y ∧ R x y := by
  induction h generalizing i with
  | nil => exact Or.inl ⟨rfl, rfl⟩
  | cons hab _ ih =>
    cases i with
    | zero => exact Or.inr ⟨_, _, rfl, rfl, hab⟩
    | succ i => exact ih i

/-- Index on two related values: the same panic, or two related elements. -/
theorem reordered_Index (n : Nat) (v w : Value) (h : reordered n v w) (i : Nat) :
    (∃ p, v.Index i = .error p ∧ w.Index i = .error p) ∨
    ∃ x y m, v.Index i = .ok x ∧ w.Index i = .ok y ∧ reordered m x y := by
  have hsame : ∀ u : Value, (∃ p, u.Index i = .error p ∧ u.Index i = .error p) ∨
      ∃ x y m, u.Index i = .ok x ∧ u.Index i = .ok y ∧ reordered m x y := by
    intro u
    cases hu : u.Index i with
    | error p => exact Or.inl ⟨p, rfl, rfl⟩
    | ok x => exact Or.inr ⟨x, x, 0, rfl, rfl, rfl⟩
  cases n with
  | zero =>
    have h2 : v = w := h
    subst h2
    exact hsame v
  | succ n =>
    rcases h with rfl | ⟨x, y, rfl, rfl, _⟩ | ⟨el, xs, ys, rfl, rfl, hl⟩ |
      ⟨el, xs, ys, rfl, rfl, hl⟩ | ⟨kt, vt, es, es2, fs, rfl, rfl, _, _, _, _⟩
    · exact hsame v
    · exact Or.inl ⟨_, rfl, rfl⟩
    · rcases forall2_get? _ xs ys hl i with ⟨h1, h2⟩ | ⟨x, y, h1, h2, hxy⟩
      · exact Or.inl ⟨Panic.text "reflect: array index out of range",
          by simp only [Value.Index, h1], by simp only [Value.Index, h2]⟩
      · exact Or.inr ⟨x, y, n, by simp only [Value.Index, h1], by simp only [Value.Index, h2], hxy⟩
    · rcases forall2_get? _ xs ys hl i with ⟨h1, h2⟩ | ⟨x, y, h1, h2, hxy⟩
      · exact Or.inl ⟨Panic.text "reflect: slice index out of range",
          by simp only [Value.Index, h1], by simp only [Value.Index, h2]⟩
      · exact Or.inr ⟨x, y, n, by simp only [Value.Index, h1], by simp only [Value.Index, h2], hxy⟩
    · exact Or.inl ⟨_, rfl, rfl⟩

/-- Elem on two related values: the same panic, or two related values. -/
theorem reordered_Elem (n : Nat) (v w : Value) (h : reordered n v w) :
    (∃ p, v.Elem = .error p ∧ w.Elem = .error p) ∨
    ∃ x y m, v.Elem = .ok x ∧ w.Elem = .ok y ∧ reordered m x y := by
  have hsame : ∀ u : Value, (∃ p, u.Elem = .error p ∧ u.Elem = .error p) ∨
      ∃ x y m, u.Elem = .ok x ∧ u.Elem = .ok y ∧ reordered m x y := by
    intro u
    cases hu : u.Elem with
    | error p => exact Or.inl ⟨p, rfl, rfl⟩
    | ok x => exact Or.inr ⟨x, x, 0, rfl, rfl, rfl⟩
  cases n with
  | zero =>
    have h2 : v = w := h
    subst h2
    exact hsame v
  | succ n =>
    rcases h with rfl | ⟨x, y, rfl, rfl, hxy⟩ | ⟨el, xs, ys, rfl, rfl, _⟩ |
      ⟨el, xs, ys, rfl, rfl, _⟩ | ⟨kt, vt, es, es2, fs, rfl, rfl, _, _, _, _⟩
    · exact hsame v
    · exact Or.inr ⟨x, y, n, rfl, rfl, hxy⟩
    · exact Or.inl ⟨_, rfl, rfl⟩
    · exact Or.inl ⟨_, rfl, rfl⟩
    · exact Or.inl ⟨_, rfl, rfl⟩

/-- MapRange on two related values: the same panic, the same entries, or the
entries of one map presented in another order with related values. -/
theorem reordered_MapRange (n : Nat) (v w : Value) (h : reordered n v w) :
    (∃ p, v.MapRange = .error p ∧ w.MapRange = .error p) ∨
    (∃ es, v.MapRange = .ok es ∧ w.MapRange = .ok es) ∨
    ∃ kt es es2 fs m, v.MapRange = .ok es ∧ w.MapRange = .ok fs ∧ es.Perm es2 ∧
      List.Forall₂ (fun a b => a.1 = b.1 ∧ reordered m a.2 b.2) es2 fs ∧
      (es.map Prod.fst).Nodup ∧ ∀ x ∈ es, x.1.TypeOf = .ok kt := by
  have hsame : ∀ u : Value, (∃ p, u.MapRange = .error p ∧ u.MapRange = .error p) ∨
      (∃ es, u.MapRange = .ok es ∧ u.MapRange = .ok es) ∨
      ∃ kt es es2 fs m, u.MapRange = .ok es ∧ u.MapRange = .ok fs ∧ es.Perm es2 ∧
        List.Forall₂ (fun a b => a.1 = b.1 ∧ reordered m a.2 b.2) es2 fs ∧
        (es.map Prod.fst).Nodup ∧ ∀ x ∈ es, x.1.TypeOf = .ok kt := by
    intro u
    cases hu : u.MapRange with
    | error p => exact Or.inl ⟨p, rfl, rfl⟩
    | ok es => exact Or.inr (Or.inl ⟨es, rfl, rfl⟩)
  cases n with
  | zero =>
    have h2 : v = w := h
    subst h2
    exact hsame v
  | succ n =>
    rcases h with rfl | ⟨x, y, rfl, rfl, _⟩ | ⟨el, xs, ys, rfl, rfl, _⟩ |
      ⟨el, xs, ys, rfl, rfl, _⟩ | ⟨kt, vt, es, es2, fs, rfl, rfl, hp, hf, hnd, hty⟩
    · exact hsame v
    · exact Or.inl ⟨_, rfl, rfl⟩
    · exact Or.inl ⟨_, rfl, rfl⟩
    · exact Or.inl ⟨_, rfl, rfl⟩
    · exact Or.inr (Or.inr ⟨kt, es, es2, fs, n, rfl, rfl, hp, hf, hnd, hty⟩)

theorem foldl_forall2 {α β : Type} (R : α → α → Prop) (f : β → α → β) (l1 l2 : List α)
    (h : List.Forall₂ R l1 l2) (hf : ∀ b x y, R x y → f b x = f b y) (b : β) :
    l1.foldl f b = l2.foldl f b := by
  induction h generalizing b with
  | nil => rfl
  | cons hab _ ih =>
    simp only [List.foldl_cons]
    rw [hf b _ _ hab]
    exact ih _

theorem orderedInsert_forall2 (K : mapKey → mapKey → Prop)
    (hK : ∀ a b, K a b → a.ks = b.ks) (a b : mapKey) (hab : K a b) (s1 s2 : List mapKey)
    (h : List.Forall₂ K s1 s2) :
    List.Forall₂ K
      (List.orderedInsert (fun a b : mapKey => stringLess b.ks a.ks = false) a s1)
      (List.orderedInsert (fun a b : mapKey => stringLess b.ks a.ks = false) b s2) := by
  induction h with
  | nil => exact List.Forall₂.cons hab List.Forall₂.nil
  | cons hcd hrest ih =>
    rename_i c d s1 s2
    simp only [List.orderedInsert]
    have hkeq : stringLess c.ks a.ks = false ↔ stringLess d.ks b.ks = false := by
      rw [hK a b hab, hK c d hcd]
    by_cases hr : stringLess d.ks b.ks = false
    · rw [if_pos (hkeq.mpr hr), if_pos hr]
      exact List.Forall₂.cons hab (List.Forall₂.cons hcd hrest)
    · rw [if_neg (fun h => hr (hkeq.mp h)), if_neg hr]
      exact List.Forall₂.cons hcd ih

/-- The sort keeps two slices of keys side by side when they carry the same
key-texts position by position. -/
theorem sortSlice_forall2 (K : mapKey → mapKey → Prop)
    (hK : ∀ a b, K a b → a.ks = b.ks) (l1 l2 : List mapKey) (h : List.Forall₂ K l1 l2) :
    List.Forall₂ K (sortSlice (fun a b => stringLess a.ks b.ks) l1)
      (sortSlice (fun a b => stringLess a.ks b.ks) l2) := by
  unfold sortSlice
  induction h with
  | nil => exact List.Forall₂.nil
  | cons hab _ ih =>
    simp only [List.insertionSort]
    exact orderedInsert_forall2 K hK _ _ hab _ _ ih

theorem forall2_mem_right {α : Type} (R : α → α → Prop) (l1 l2 : List α)
    (h : List.Forall₂ R l1 l2) (b : α) (hb : b ∈ l2) : ∃ a, a ∈ l1 ∧ R a b := by
  induction h with
  | nil => cases hb
  | cons hab _ ih =>
    rcases List.mem_cons.mp hb with rfl | hb
    · exact ⟨_, List.mem_cons_self _ _, hab⟩
    · obtain ⟨a, ha, hR⟩ := ih hb
      exact ⟨a, List.mem_cons_of_mem _ ha, hR⟩

theorem mapKeyText_unsupported (kt : Ty) (kv : Value) (hty : kv.TypeOf = .ok kt)
    (hk : ¬ (kt = .string ∨ (∃ k, kt = .int k) ∨ (∃ k, kt = .uint k))) :
    mapKeyText kv = .error (Panic.text "unexpected map key type") := by
  cases kv with
  | invalid => simp [Value.TypeOf] at hty
  | string s => exact absurd (Or.inl (Except.ok.inj hty).symm) hk
  | int k i => exact absurd (Or.inr (Or.inl ⟨k, (Except.ok.inj hty).symm⟩)) hk
  | uint k u => exact absurd (Or.inr (Or.inr ⟨k, (Except.ok.inj hty).symm⟩)) hk
  | float k b => cases k <;> rfl
  | _ => rfl

theorem mapKeys_unsupported (kt : Ty) (es : List (Value × Value)) (hne : es ≠ [])
    (hty : ∀ x ∈ es, x.1.TypeOf = .ok kt)
    (hk : ¬ (kt = .string ∨ (∃ k, kt = .int k) ∨ (∃ k, kt = .uint k))) :
    mapKeys es = .error (Panic.text "unexpected map key type") := by
  cases es with
  | nil => exact absurd rfl hne
  | cons x rest =>
    obtain ⟨kv, vv⟩ := x
    simp only [mapKeys, mapKeyText_unsupported kt kv (hty (kv, vv) (List.mem_cons_self _ _)) hk]

/-- The array encoder gives the same result on two related values when its
element encoder does. -/
theorem arrayEncoder_reordered (el : encoderFunc)
    (hel : ∀ (m : Nat) (x y : Value) (e : encodeState), reordered m x y → el e x = el e y)
    (n : Nat) (v w : Value) (h : reordered n v w) (e : encodeState) :
    (arrayEncoder.mk el).encode e v = (arrayEncoder.mk el).encode e w := by
  have hLen := (reordered_obs n v w h).2.2.2.2.2.2.2.1
  simp only [arrayEncoder.encode]
  rw [← hLen]
  cases v.Len with
  | error p => rfl
  | ok k =>
    simp only
    congr 1
    refine foldl_congr_mem _ _ _ _ (fun i _ r => andThen_congr r _ _ (fun e2 => ?_))
    by_cases hi : i > 0
    · simp only [hi, if_true]
      rcases reordered_Index n v w h i with ⟨p, h1, h2⟩ | ⟨x, y, m, h1, h2, hxy⟩
      · rw [h1, h2]
      · rw [h1, h2]
        exact hel m x y _ hxy
    · simp only [hi, if_false]

/-- The map encoder gives the same result on two related values when its value
encoder does: the entries are sorted by key-text before any is emitted. -/
theorem mapEncoder_reordered (valEnc keyEnc : encoderFunc)
    (hval : ∀ (m : Nat) (x y : Value) (e : encodeState), reordered m x y →
      valEnc e x = valEnc e y)
    (n : Nat) (v w : Value) (h : reordered n v w) (e : encodeState) :
    (mapEncoder.mk valEnc keyEnc).encode e v = (mapEncoder.mk valEnc keyEnc).encode e w := by
  have hNil := (reordered_obs n v w h).2.2.2.2.2.2.1
  simp only [mapEncoder.encode]
  rw [← hNil]
  cases v.IsNil with
  | error p => rfl
  | ok b =>
    cases b with
    | true => rfl
    | false =>
      simp only
      rcases reordered_MapRange n v w h with ⟨p, h1, h2⟩ | ⟨es, h1, h2⟩ |
        ⟨kt, es, es2, fs, m, h1, h2, hp, hf, hnd, hty⟩
      · rw [h1, h2]
      · rw [h1, h2]
      · rw [h1, h2]
        simp only
        have hty2 : ∀ x ∈ fs, x.1.TypeOf = .ok kt := by
          intro x hx
          obtain ⟨a, ha, hax⟩ := forall2_mem_right _ es2 fs hf x hx
          rw [← hax.1]
          exact hty a (hp.mem_iff.mpr ha)
        by_cases hk : kt = .string ∨ (∃ k, kt = .int k) ∨ (∃ k, kt = .uint k)
        · rw [mapKeys_eq es (fun x hx => mapKeyText_of_type kt x.1 (hty x hx) hk),
            mapKeys_eq fs (fun x hx => mapKeyText_of_type kt x.1 (hty2 x hx) hk)]
          simp only
          congr 1
          rw [sortSlice_eq_of_perm _ _ (hp.map _) (keyTexts_nodup kt es hk hnd hty)]
          refine foldl_forall2
            (fun a b : mapKey => a.kv = b.kv ∧ a.ks = b.ks ∧ reordered m a.vv b.vv) _ _ _
            (sortSlice_forall2 _ (fun a b hab => hab.2.1) _ _ ?_) ?_ _
          · rw [List.forall₂_map_left_iff, List.forall₂_map_right_iff]
            exact hf.imp fun a b hab => ⟨hab.1, by rw [hab.1], hab.2⟩
          · intro r a b hab
            refine andThen_congr r _ _ (fun e2 => ?_)
            rw [hab.1]
            exact andThen_congr _ _ _ (fun e3 => hval m _ _ e3 hab.2.2)
        · cases es with
          | nil =>
            have h3 : es2 = [] := List.Perm.eq_nil hp.symm
            subst h3
            cases hf
            rfl
          | cons x rest =>
            have hne2 : fs ≠ [] := by
              intro hfs
              subst hfs
              have h4 := hf.length_eq
              have h5 := hp.length_eq
              rw [List.length_nil] at h4
              rw [List.length_cons] at h5
              omega
            rw [mapKeys_unsupported kt (x :: rest) (List.cons_ne_nil _ _) hty hk,
              mapKeys_unsupported kt fs hne2 hty2 hk]

/-- An encoder made by newTypeEncoder gives the same result on two related
values when the callback does. -/
theorem newTypeEncoder_reordered (rv : encoderFunc)
    (hrv : ∀ (m : Nat) (x y : Value) (e : encodeState), reordered m x y → rv e x = rv e y) :
    ∀ (t : Ty) (f : encoderFunc), newTypeEncoder rv t = some f →
      ∀ (m : Nat) (v w : Value) (e : encodeState), reordered m v w → f e v = f e w
  | .bool, f, hf, m, v, w, e, h => by
    simp only [newTypeEncoder, Option.some.injEq] at hf
    subst hf
    simp only [boolEncoder, (reordered_obs m v w h).2.2.1]
  | .int _, f, hf, m, v, w, e, h => by
    simp only [newTypeEncoder, Option.some.injEq] at hf
    subst hf
    simp only [intEncoder, (reordered_obs m v w h).2.2.2.1]
  | .uint _, f, hf, m, v, w, e, h => by
    simp only [newTypeEncoder, Option.some.injEq] at hf
    subst hf
    simp only [uintEncoder, (reordered_obs m v w h).2.2.2.2.1]
  | .string, f, hf, m, v, w, e, h => by
    simp only [newTypeEncoder, Option.some.injEq] at hf
    subst hf
    simp only [stringEncoder, (reordered_obs m v w h).2.2.2.2.2.1]
  | .float _, f, hf, m, v, w, e, h => by
    simp only [newTypeEncoder, Option.some.injEq] at hf
    subst hf
    simp only [unsupportedTypeEncoder, (reordered_obs m v w h).2.1]
  | .complex64, f, hf, m, v, w, e, h => by
    simp only [newTypeEncoder, Option.some.injEq] at hf
    subst hf
    simp only [unsupportedTypeEncoder, (reordered_obs m v w h).2.1]
  | .complex128, f, hf, m, v, w, e, h => by
    simp only [newTypeEncoder, Option.some.injEq] at hf
    subst hf
    simp only [unsupportedTypeEncoder, (reordered_obs m v w h).2.1]
  | .func, f, hf, m, v, w, e, h => by
    simp only [newTypeEncoder, Option.some.injEq] at hf
    subst hf
    simp only [unsupportedTypeEncoder, (reordered_obs m v w h).2.1]
  | .unsafePointer, f, hf, m, v, w, e, h => by
    simp only [newTypeEncoder, Option.some.injEq] at hf
    subst hf
    simp only [unsupportedTypeEncoder, (reordered_obs m v w h).2.1]
  | .chan _, f, hf, m, v, w, e, h => by
    simp only [newTypeEncoder, Option.some.injEq] at hf
    subst hf
    simp only [unsupportedTypeEncoder, (reordered_obs m v w h).2.1]
  | .struct _ _, f, hf, m, v, w, e, h => by
    simp only [newTypeEncoder, Option.some.injEq] at hf
    subst hf
    rfl
  | .named _ _, f, hf, m, v, w, e, h => by
    simp only [newTypeEncoder] at hf
    cases hf
  | .interface, f, hf, m, v, w, e, h => by
    simp only [newTypeEncoder, Option.some.injEq] at hf
    subst hf
    simp only [interfaceEncoder, (reordered_obs m v w h).2.2.2.2.2.2.1]
    cases w.IsNil with
    | error p => rfl
    | ok b =>
      cases b with
      | true => rfl
      | false =>
        simp only
        rcases reordered_Elem m v w h with ⟨p, h1, h2⟩ | ⟨x, y, k, h1, h2, hxy⟩
        · rw [h1, h2]
        · rw [h1, h2]
          exact hrv k x y e hxy
  | .ptr el, f, hf, m, v, w, e, h => by
    simp only [newTypeEncoder, Option.map_eq_some'] at hf
    obtain ⟨g, _, rfl⟩ := hf
    simp only [newPtrEncoder, ptrEncoder.encode, (reordered_obs m v w h).2.2.2.2.2.2.1]
  | .array _ el, f, hf, m, v, w, e, h => by
    simp only [newTypeEncoder, Option.map_eq_some'] at hf
    obtain ⟨g, hg, rfl⟩ := hf
    exact arrayEncoder_reordered g (newTypeEncoder_reordered rv hrv el g hg) m v w h e
  | .slice el, f, hf, m, v, w, e, h => by
    simp only [newTypeEncoder, Option.map_eq_some'] at hf
    obtain ⟨g, hg, rfl⟩ := hf
    simp only [newSliceEncoder, sliceEncoder.encode, (reordered_obs m v w h).2.2.2.2.2.2.1]
    cases w.IsNil with
    | error p => rfl
    | ok b =>
      cases b with
      | true => rfl
      | false =>
        exact arrayEncoder_reordered g (newTypeEncoder_reordered rv hrv el g hg) m v w h e
  | .map k el, f, hf, m, v, w, e, h => by
    by_cases hk : k = .string ∨ (∃ j, k = .int j) ∨ (∃ j, k = .uint j)
    · have hnm : newTypeEncoder rv (.map k el) =
          match newTypeEncoder rv el, newTypeEncoder rv k with
          | some vf, some kf => some (mapEncoder.mk vf kf).encode
          | _, _ => none := by
        rcases hk with rfl | ⟨j, rfl⟩ | ⟨j, rfl⟩ <;> rfl
      rw [hnm] at hf
      cases hel : newTypeEncoder rv el with
      | none =>
        simp only [hel] at hf
        cases hf
      | some vf =>
        cases hkf : newTypeEncoder rv k with
        | none =>
          simp only [hel, hkf] at hf
          cases hf
        | some kf =>
          simp only [hel, hkf, Option.some.injEq] at hf
          subst hf
          exact mapEncoder_reordered vf kf (newTypeEncoder_reordered rv hrv el vf hel) m v w h e
    · have hun : newTypeEncoder rv (.map k el) = some unsupportedTypeEncoder := by
        cases k <;> first | rfl | (exfalso; exact hk (by simp))
      rw [hun, Option.some.injEq] at hf
      subst hf
      simp only [unsupportedTypeEncoder, (reordered_obs m v w h).2.1]

/-- The method reflectValue gives the same result on two related values. -/
theorem reflectValue_reordered (fuel : Nat) : ∀ (m : Nat) (v w : Value) (e : encodeState),
    reordered m v w → reflectValue fuel e v = reflectValue fuel e w := by
  induction fuel with
  | zero => intro m v w e _; rfl
  | succ fuel ih =>
    intro m v w e h
    obtain ⟨hV, hT, _⟩ := reordered_obs m v w h
    simp only [reflectValue, valueEncoder, hV, hT]
    cases w.IsValid with
    | false => rfl
    | true =>
      simp only [Bool.not_true, Bool.false_eq_true, if_false]
      cases w.TypeOf with
      | error p => rfl
      | ok t =>
        simp only
        cases hte : typeEncoder (reflectValue fuel) t with
        | none => rfl
        | some f => exact newTypeEncoder_reordered (reflectValue fuel) ih t f hte m v w e h

/-- C5: the result of Marshal, bytes or failure, does not depend on the order in
which the iterator of a map presents the entries to the map encoder, whether
the map is the value given to Marshal or lies inside it (held by an interface,
as an element of a list, as a value of another map): if w is v with some of its
maps presented in another order, each with the same entries under pairwise
distinct keys of its key type, then Marshal(v) and Marshal(w) are identical. -/
theorem Marshal_map_order_independent (n : Nat) (v w : Value) (h : reordered n v w) :
    Marshal v = Marshal w := by
  have hD := (reordered_obs n v w h).2.2.2.2.2.2.2.2
  simp only [Marshal, encodeState.marshal, hD,
    reflectValue_reordered (w.depth + 1) n v w newEncodeState h]

/-- The order independence of C5 at map[int]map[int]int{1: {10: 3, 9: 2}}, the
inner map presented as (10, 9) and as (9, 10): the two values are related by
`reordered`, Marshal gives the same bytes for both, the inner entry of key-text
"10" first; and so it is at the map {10: 3, 9: 2} given to Marshal itself. -/
theorem Marshal_map_order_independent_witness :
    reordered 2
      (mapOfMap [(.int .Int 10, .int .Int 3), (.int .Int 9, .int .Int 2)])
      (mapOfMap [(.int .Int 9, .int .Int 2), (.int .Int 10, .int .Int 3)]) ∧
    Marshal (mapOfMap [(.int .Int 10, .int .Int 3), (.int .Int 9, .int .Int 2)]) =
      Marshal (mapOfMap [(.int .Int 9, .int .Int 2), (.int .Int 10, .int .Int 3)]) ∧
    Marshal (mapOfMap [(.int .Int 9, .int .Int 2), (.int .Int 10, .int .Int 3)]) =
      .value (some "di1edi10ei3ei9ei2eee".toList, none) ∧
    Marshal (.map (.int .Int) (.int .Int)
        (some [(.int .Int 10, .int .Int 3), (.int .Int 9, .int .Int 2)])) =
      Marshal (.map (.int .Int) (.int .Int)
        (some [(.int .Int 9, .int .Int 2), (.int .Int 10, .int .Int 3)])) := by
  have hinner : reordered 1
      (.map (.int .Int) (.int .Int)
        (some [(.int .Int 10, .int .Int 3), (.int .Int 9, .int .Int 2)]))
      (.map (.int .Int) (.int .Int)
        (some [(.int .Int 9, .int .Int 2), (.int .Int 10, .int .Int 3)])) := by
    refine Or.inr (Or.inr (Or.inr (Or.inr ⟨.int .Int, .int .Int, _,
      [(.int .Int 9, .int .Int 2), (.int .Int 10, .int .Int 3)], _, rfl, rfl,
      List.Perm.swap _ _ _, ?_, by simp, ?_⟩)))
    · exact List.Forall₂.cons ⟨rfl, rfl⟩ (List.Forall₂.cons ⟨rfl, rfl⟩ List.Forall₂.nil)
    · intro x hx
      simp at hx
      rcases hx with rfl | rfl <;> rfl
  have houter : reordered 2
      (mapOfMap [(.int .Int 10, .int .Int 3), (.int .Int 9, .int .Int 2)])
      (mapOfMap [(.int .Int 9, .int .Int 2), (.int .Int 10, .int .Int 3)]) := by
    refine Or.inr (Or.inr (Or.inr (Or.inr ⟨.int .Int, .map (.int .Int) (.int .Int), _,
      _, _, rfl, rfl, List.Perm.refl _, ?_, by simp, ?_⟩)))
    · exact List.Forall₂.cons ⟨rfl, hinner⟩ List.Forall₂.nil
    · intro x hx
      simp at hx
      subst hx
      rfl
  exact ⟨houter, Marshal_map_order_independent 2 _ _ houter, rfl,
    Marshal_map_order_independent 1 _ _ hinner⟩

end Bencode
